import Mathlib

/-!
Verification development for the distributed string sorting code base
(string container / LCP operations, duplicate-prefix Bloom filter,
Golomb codec wire format, merge-sort driver dispatch).

Strings are modelled as lists of byte values (`Str := List Nat`); the
implicit 0 terminator of the char arenas is not stored, mirroring the
fact that the arena layout keeps string contents free of 0 bytes.
-/

set_option maxRecDepth 8192

namespace DSS

/-- A string: the byte contents of one null-terminated arena string,
terminator not stored. -/
abbrev Str := List Nat

/-- The string comparison used throughout the code base
(for example `StringTriple::operator<` in `bloomfilter.hpp`):
walk both strings while the characters agree and are not the
terminator, then compare the first disagreeing characters.  Reading one
position past the stored contents yields the terminator value 0. -/
def strLt : Str → Str → Bool
  | [], [] => false
  | [], y :: _ => decide (0 < y)
  | _ :: _, [] => false
  | x :: as, y :: bs => if x ≠ 0 ∧ x = y then strLt as bs else decide (x < y)

/-- `a ≤ b` for strings: `b` is not smaller than `a`. -/
def strLe (a b : Str) : Bool := !strLt b a

/-- Plain lexicographic strict order on byte lists (no terminator
semantics); `strLt` reduces to it after truncating at the first 0. -/
def lexLt : Str → Str → Bool
  | [], [] => false
  | [], _ :: _ => true
  | _ :: _, [] => false
  | x :: as, y :: bs => if x = y then lexLt as bs else decide (x < y)

/-- Truncate a byte list at its first 0 byte: the contents the C++
comparison loop actually inspects. -/
def strNorm (s : Str) : Str := s.takeWhile (fun c => c ≠ 0)

theorem strLt_eq_lexLt (a b : Str) : strLt a b = lexLt (strNorm a) (strNorm b) := by
  induction a generalizing b with
  | nil =>
    cases b with
    | nil => rfl
    | cons y bs =>
      by_cases hy : y = 0
      · subst hy; simp [strLt, strNorm, lexLt]
      · simp [strLt, strNorm, lexLt, hy, Nat.pos_of_ne_zero hy]
  | cons x as ih =>
    cases b with
    | nil =>
      by_cases hx : x = 0 <;> simp [strLt, strNorm, lexLt, hx]
    | cons y bs =>
      by_cases hx : x = 0
      · subst hx
        by_cases hy : y = 0 <;> simp [strLt, strNorm, lexLt, hy, Nat.pos_iff_ne_zero]
      · by_cases hy : y = 0
        · subst hy
          simp [strLt, strNorm, lexLt, hx, Nat.not_lt_zero]
        · by_cases hxy : x = y
          · subst hxy
            simp [strLt, strNorm, lexLt, hx, ih]
          · simp [strLt, strNorm, lexLt, hx, hy, hxy]

theorem lexLt_irrefl (a : Str) : lexLt a a = false := by
  induction a with
  | nil => rfl
  | cons x as ih => simp [lexLt, ih]

theorem lexLt_asymm {a b : Str} (h : lexLt a b = true) : lexLt b a = false := by
  induction a generalizing b with
  | nil =>
    cases b with
    | nil => simp [lexLt] at h
    | cons y bs => simp [lexLt]
  | cons x as ih =>
    cases b with
    | nil => simp [lexLt] at h
    | cons y bs =>
      by_cases hxy : x = y
      · subst hxy
        simp only [lexLt, if_pos rfl] at h ⊢
        exact ih h
      · simp only [lexLt, if_neg hxy, decide_eq_true_eq] at h
        have : ¬ y = x := fun hyx => hxy (hyx.symm)
        simp only [lexLt, if_neg this, decide_eq_false_iff_not]
        omega

theorem lexLt_trans {a b c : Str} (hab : lexLt a b = true) (hbc : lexLt b c = true) :
    lexLt a c = true := by
  induction a generalizing b c with
  | nil =>
    cases b with
    | nil => simp [lexLt] at hab
    | cons y bs =>
      cases c with
      | nil => simp [lexLt] at hbc
      | cons z cs => simp [lexLt]
  | cons x as ih =>
    cases b with
    | nil => simp [lexLt] at hab
    | cons y bs =>
      cases c with
      | nil => simp [lexLt] at hbc
      | cons z cs =>
        by_cases hxy : x = y <;> by_cases hyz : y = z
        · subst hxy; subst hyz
          simp only [lexLt, if_pos rfl] at hab hbc ⊢
          exact ih hab hbc
        · subst hxy
          simp only [lexLt, if_pos rfl] at hab
          simp only [lexLt, if_neg hyz] at hbc ⊢
          exact hbc
        · subst hyz
          simp only [lexLt, if_neg hxy] at hab
          simp only [lexLt, if_neg hxy]
          exact hab
        · simp only [lexLt, if_neg hxy, decide_eq_true_eq] at hab
          simp only [lexLt, if_neg hyz, decide_eq_true_eq] at hbc
          have hxz : ¬ x = z := by omega
          simp only [lexLt, if_neg hxz, decide_eq_true_eq]
          omega

theorem lexLt_total {a b : Str} (hab : lexLt a b = false) (hba : lexLt b a = false) :
    a = b := by
  induction a generalizing b with
  | nil =>
    cases b with
    | nil => rfl
    | cons y bs => simp [lexLt] at hab
  | cons x as ih =>
    cases b with
    | nil => simp [lexLt] at hba
    | cons y bs =>
      by_cases hxy : x = y
      · subst hxy
        simp only [lexLt, if_pos rfl] at hab hba
        exact congrArg _ (ih hab hba)
      · have hyx : ¬ y = x := fun h => hxy h.symm
        simp only [lexLt, if_neg hxy, decide_eq_false_iff_not] at hab
        simp only [lexLt, if_neg hyx, decide_eq_false_iff_not] at hba
        omega

/-- Transitivity of the boolean `≤` used by the sorter. -/
theorem strLe_trans {a b c : Str} (hab : strLe a b = true) (hbc : strLe b c = true) :
    strLe a c = true := by
  simp only [strLe, strLt_eq_lexLt, Bool.not_eq_true'] at hab hbc ⊢
  by_cases hca : lexLt (strNorm c) (strNorm a) = true
  · by_cases hAB : lexLt (strNorm a) (strNorm b) = true
    · exact absurd (lexLt_trans hca hAB) (by simp [hbc])
    · have hEq : strNorm a = strNorm b :=
        lexLt_total (by simpa using hAB) hab
      rw [hEq] at hca
      exact absurd hca (by simp [hbc])
  · simpa using hca

/-- Totality of the boolean `≤` used by the sorter. -/
theorem strLe_total (a b : Str) : (strLe a b || strLe b a) = true := by
  simp only [strLe, strLt_eq_lexLt]
  by_cases h : lexLt (strNorm b) (strNorm a) = true
  · have := lexLt_asymm h
    simp [h, this]
  · simp [h]

/-- `a ≤ b` and `b < c` (comparator sense) imply `a ≤ c`. -/
theorem strLe_of_le_of_lt {a b c : Str} (hab : strLe a b = true) (hbc : strLt b c = true) :
    strLe a c = true := by
  simp only [strLe, strLt_eq_lexLt, Bool.not_eq_true'] at hab ⊢
  rw [strLt_eq_lexLt] at hbc
  by_cases hca : lexLt (strNorm c) (strNorm a) = true
  · by_cases hAB : lexLt (strNorm a) (strNorm b) = true
    · have hac : lexLt (strNorm a) (strNorm c) = true := lexLt_trans hAB hbc
      exact absurd hac (by simp [lexLt_asymm hca])
    · have hEq : strNorm a = strNorm b :=
        lexLt_total (by simpa using hAB) hab
      rw [hEq] at hca
      have := lexLt_trans hbc hca
      simp [lexLt_irrefl] at this
  · simpa using hca

/-! ## String container: `make_contiguous` (C8)

`StringContainer::make_contiguous` in `strings/stringcontainer.hpp`
copies every descriptor's `length` characters into a fresh buffer in
descriptor order, appends a 0 terminator after each string, and
repoints the descriptors at the copies.  A descriptor is modelled as a
pair `(off, len)` of an offset into the char arena and a length. -/

/-- The bytes a descriptor `(off, len)` denotes inside `arena`. -/
def descContent (arena : List Nat) (d : Nat × Nat) : List Nat :=
  (arena.drop d.1).take d.2

/-- New descriptor offsets laid out contiguously from `start`:
`off₀ = start`, `off_(i+1) = off_i + len_i + 1`. -/
def contiguousDescs (start : Nat) : List (Nat × Nat) → List (Nat × Nat)
  | [] => []
  | d :: ds => (start, d.2) :: contiguousDescs (start + d.2 + 1) ds

/-- `StringContainer::make_contiguous`: the rewritten arena and the
repointed descriptors. -/
def make_contiguous (arena : List Nat) (descs : List (Nat × Nat)) :
    List Nat × List (Nat × Nat) :=
  ((descs.map (fun d => descContent arena d ++ [0])).flatten,
    contiguousDescs 0 descs)

theorem contiguousDescs_length (start : Nat) (ds : List (Nat × Nat)) :
    (contiguousDescs start ds).length = ds.length := by
  induction ds generalizing start with
  | nil => rfl
  | cons d ds ih => simp [contiguousDescs, ih]

theorem contiguousDescs_adjacent (start : Nat) (ds : List (Nat × Nat)) (i : Nat)
    (hi : i + 1 < ds.length) :
    ((contiguousDescs start ds).get ⟨i + 1, by rw [contiguousDescs_length]; exact hi⟩).1 =
      ((contiguousDescs start ds).get ⟨i, by rw [contiguousDescs_length]; omega⟩).1 +
      ((contiguousDescs start ds).get ⟨i, by rw [contiguousDescs_length]; omega⟩).2 + 1 := by
  induction ds generalizing start i with
  | nil => simp at hi
  | cons d ds ih =>
    cases i with
    | zero =>
      cases ds with
      | nil => simp at hi
      | cons e es => simp [contiguousDescs]
    | succ j =>
      have hj : j + 1 < ds.length := by simpa using hi
      simpa [contiguousDescs] using ih (start + d.2 + 1) j hj

/-- The layout produced by `make_contiguous`, as a function of the
string contents alone: each string followed by a 0 terminator, packed
back to back, descriptors repointed in order. -/
def layoutOfContents (cs : List Str) : List Nat × List (Nat × Nat) :=
  ((cs.map (fun c => c ++ [0])).flatten,
    contiguousDescs 0 (cs.map (fun c => (0, c.length))))

theorem contiguousDescs_lens_congr (start : Nat) :
    ∀ (ds es : List (Nat × Nat)), ds.map Prod.snd = es.map Prod.snd →
      contiguousDescs start ds = contiguousDescs start es := by
  intro ds
  induction ds generalizing start with
  | nil =>
    intro es h
    cases es with
    | nil => rfl
    | cons e es => simp at h
  | cons d ds ih =>
    intro es h
    cases es with
    | nil => simp at h
    | cons e es =>
      simp only [List.map_cons, List.cons.injEq] at h
      simp [contiguousDescs, h.1, ih (start + e.2 + 1) es h.2]

theorem descContent_length (arena : List Nat) (d : Nat × Nat)
    (hv : d.1 + d.2 ≤ arena.length) : (descContent arena d).length = d.2 := by
  simp only [descContent, List.length_take, List.length_drop]
  omega

theorem descContent_after (pre rest : List Nat) (n : Nat) :
    descContent (pre ++ rest) (pre.length, n) = rest.take n := by
  simp [descContent, List.drop_left]

theorem make_contiguous_run (arena pre : List Nat) :
    ∀ (descs : List (Nat × Nat)),
      (∀ d ∈ descs, d.1 + d.2 ≤ arena.length) →
      ∀ i (hi : i < descs.length),
        descContent
            (pre ++ (descs.map (fun d => descContent arena d ++ [0])).flatten)
            ((contiguousDescs pre.length descs).get
              ⟨i, by rw [contiguousDescs_length]; exact hi⟩)
          = descContent arena (descs.get ⟨i, hi⟩) ∧
        (pre ++ (descs.map (fun d => descContent arena d ++ [0])).flatten)[
            ((contiguousDescs pre.length descs).get
              ⟨i, by rw [contiguousDescs_length]; exact hi⟩).1 +
            ((contiguousDescs pre.length descs).get
              ⟨i, by rw [contiguousDescs_length]; exact hi⟩).2]?
          = some 0 := by
  intro descs
  induction descs generalizing pre with
  | nil => intro _ i hi; simp at hi
  | cons d ds ih =>
    intro hv i hi
    have hd : d.1 + d.2 ≤ arena.length := hv d (by simp)
    have hclen : (descContent arena d).length = d.2 := descContent_length arena d hd
    have hbuf : pre ++ ((d :: ds).map (fun e => descContent arena e ++ [0])).flatten
        = pre ++ (descContent arena d ++
            ([0] ++ (ds.map (fun e => descContent arena e ++ [0])).flatten)) := by
      simp
    cases i with
    | zero =>
      constructor
      · simp only [contiguousDescs, List.get]
        rw [hbuf, descContent_after, List.take_left' hclen]
      · simp only [contiguousDescs, List.get]
        rw [hbuf, List.getElem?_append_right (by omega)]
        have h2 : pre.length + d.2 - pre.length = d.2 := by omega
        rw [h2, List.getElem?_append_right (by omega), hclen, Nat.sub_self]
        simp
    | succ j =>
      have hj : j < ds.length := by simpa using hi
      have hstep :
          pre ++ ((d :: ds).map (fun e => descContent arena e ++ [0])).flatten
            = (pre ++ (descContent arena d ++ [0]))
              ++ (ds.map (fun e => descContent arena e ++ [0])).flatten := by
        simp [List.append_assoc]
      have hlen : (pre ++ (descContent arena d ++ [0])).length
          = pre.length + d.2 + 1 := by
        simp only [List.length_append, List.length_cons, List.length_nil, hclen]
        omega
      have := ih (pre ++ (descContent arena d ++ [0]))
        (fun e he => hv e (by simp [he])) j hj
      rw [hlen] at this
      constructor
      · rw [hstep]
        simpa [contiguousDescs] using this.1
      · rw [hstep]
        simpa [contiguousDescs] using this.2

/-- C8: after `make_contiguous` the descriptors point to disjoint,
contiguous, null-terminated runs of the new arena in descriptor order
(`descs[i].off + descs[i].len + 1 = descs[i+1].off`), each run holds
the bytes the old descriptor denoted, and the resulting layout is a
function of the denoted string sequence alone. -/
theorem c8_make_contiguous (arena : List Nat) (descs : List (Nat × Nat))
    (hv : ∀ d ∈ descs, d.1 + d.2 ≤ arena.length) :
    (make_contiguous arena descs).2.length = descs.length ∧
    (∀ i, i + 1 < descs.length →
      ((make_contiguous arena descs).2.getD (i + 1) (0, 0)).1 =
        ((make_contiguous arena descs).2.getD i (0, 0)).1 +
        ((make_contiguous arena descs).2.getD i (0, 0)).2 + 1) ∧
    (∀ i, i < descs.length →
      descContent (make_contiguous arena descs).1
          ((make_contiguous arena descs).2.getD i (0, 0))
        = descContent arena (descs.getD i (0, 0)) ∧
      (make_contiguous arena descs).1[
          ((make_contiguous arena descs).2.getD i (0, 0)).1 +
          ((make_contiguous arena descs).2.getD i (0, 0)).2]? = some 0) ∧
    make_contiguous arena descs = layoutOfContents (descs.map (descContent arena)) := by
  have hlen2 : (make_contiguous arena descs).2.length = descs.length := by
    simp [make_contiguous, contiguousDescs_length]
  refine ⟨hlen2, ?_, ?_, ?_⟩
  · intro i hi
    have h1 : i + 1 < (make_contiguous arena descs).2.length := by rw [hlen2]; exact hi
    have h0 : i < (make_contiguous arena descs).2.length := by omega
    rw [List.getD_eq_getElem _ _ h1, List.getD_eq_getElem _ _ h0]
    have := contiguousDescs_adjacent 0 descs i hi
    simpa [make_contiguous, List.get_eq_getElem] using this
  · intro i hi
    have h0 : i < (make_contiguous arena descs).2.length := by rw [hlen2]; exact hi
    have hd : i < descs.length := hi
    rw [List.getD_eq_getElem _ _ h0, List.getD_eq_getElem _ _ hd]
    have := make_contiguous_run arena [] descs hv i hi
    simp only [List.nil_append, List.length_nil] at this
    constructor
    · have h1 := this.1
      simpa [make_contiguous, List.get_eq_getElem] using h1
    · have h2 := this.2
      simpa [make_contiguous, List.get_eq_getElem] using h2
  · have hmap : descs.map Prod.snd
        = ((descs.map (descContent arena)).map (fun c => ((0 : Nat), c.length))).map
            Prod.snd := by
      simp only [List.map_map]
      refine List.map_congr_left ?_
      intro d hd
      simp [Function.comp, descContent_length arena d (hv d hd)]
    unfold make_contiguous layoutOfContents
    refine Prod.ext ?_ ?_
    · simp [List.map_map, Function.comp_def]
    · simpa using contiguousDescs_lens_congr 0 descs
        ((descs.map (descContent arena)).map (fun c => ((0 : Nat), c.length))) hmap

/-- Witness for C8 at a concrete container. -/
theorem c8_make_contiguous_witness :
    (∀ d ∈ [((2, 1) : Nat × Nat), (0, 2)], d.1 + d.2 ≤ ([5, 6, 0, 7] : List Nat).length) ∧
    ((make_contiguous [5, 6, 0, 7] [(2, 1), (0, 2)]).2.length
        = ([((2, 1) : Nat × Nat), (0, 2)] : List (Nat × Nat)).length ∧
      (∀ i, i + 1 < ([((2, 1) : Nat × Nat), (0, 2)] : List (Nat × Nat)).length →
        ((make_contiguous [5, 6, 0, 7] [(2, 1), (0, 2)]).2.getD (i + 1) (0, 0)).1 =
          ((make_contiguous [5, 6, 0, 7] [(2, 1), (0, 2)]).2.getD i (0, 0)).1 +
          ((make_contiguous [5, 6, 0, 7] [(2, 1), (0, 2)]).2.getD i (0, 0)).2 + 1) ∧
      (∀ i, i < ([((2, 1) : Nat × Nat), (0, 2)] : List (Nat × Nat)).length →
        descContent (make_contiguous [5, 6, 0, 7] [(2, 1), (0, 2)]).1
            ((make_contiguous [5, 6, 0, 7] [(2, 1), (0, 2)]).2.getD i (0, 0))
          = descContent [5, 6, 0, 7]
              (([((2, 1) : Nat × Nat), (0, 2)] : List (Nat × Nat)).getD i (0, 0)) ∧
        (make_contiguous [5, 6, 0, 7] [(2, 1), (0, 2)]).1[
            ((make_contiguous [5, 6, 0, 7] [(2, 1), (0, 2)]).2.getD i (0, 0)).1 +
            ((make_contiguous [5, 6, 0, 7] [(2, 1), (0, 2)]).2.getD i (0, 0)).2]? = some 0) ∧
      make_contiguous [5, 6, 0, 7] [(2, 1), (0, 2)]
        = layoutOfContents
            (([((2, 1) : Nat × Nat), (0, 2)] : List (Nat × Nat)).map
              (descContent [5, 6, 0, 7]))) :=
  ⟨by decide, c8_make_contiguous [5, 6, 0, 7] [(2, 1), (0, 2)] (by decide)⟩

/-! ## StringLcpContainer: `extend_prefix` (C2)

`StringLcpContainer::extend_prefix` in `strings/stringcontainer.hpp`
asserts `lcps.size() == size()` and `lcps.empty() || lcps.front() == 0`,
then rewrites every stored string to `lcps[i]` bytes copied from the
previously rebuilt string followed by the stored bytes (the distinct
tail).  Assertion failure is modelled as `none`. -/

/-- The rebuild loop of `extend_prefix`: `prev` is the previously
rebuilt string (the fresh buffer is empty before the first round). -/
def extendByLcp (prev : Str) : List Str → List Nat → List Str
  | t :: ts, l :: ls =>
    let cur := prev.take l ++ t
    cur :: extendByLcp cur ts ls
  | _, _ => []

/-- `StringLcpContainer::extend_prefix` on the stored distinct tails. -/
def extend_prefix_op (tails : List Str) (lcps : List Nat) : Option (List Str) :=
  if lcps.length ≠ tails.length then none
  else if lcps.headD 0 ≠ 0 then none
  else some (extendByLcp [] tails lcps)

/-- `lcps` is a valid LCP-compression certificate for `source` relative
to a preceding string `prev`: each entry does not exceed the previous
string's length and the two strings agree on that prefix. -/
def lcpChainB (prev : Str) : List Str → List Nat → Bool
  | [], [] => true
  | s :: ss, l :: ls =>
    decide (l ≤ prev.length) && decide (s.take l = prev.take l) && lcpChainB s ss ls
  | _, _ => false

theorem lcpChainB_length (prev : Str) :
    ∀ (ss : List Str) (ls : List Nat), lcpChainB prev ss ls = true →
      ls.length = ss.length := by
  intro ss
  induction ss generalizing prev with
  | nil => intro ls h; cases ls with
    | nil => rfl
    | cons l ls => simp [lcpChainB] at h
  | cons s ss ih =>
    intro ls h
    cases ls with
    | nil => simp [lcpChainB] at h
    | cons l ls =>
      simp only [lcpChainB, Bool.and_eq_true] at h
      simp [ih s ls h.2]

theorem extendByLcp_reconstruct (prev : Str) :
    ∀ (ss : List Str) (ls : List Nat), lcpChainB prev ss ls = true →
      extendByLcp prev (List.zipWith (fun l s => s.drop l) ls ss) ls = ss := by
  intro ss
  induction ss generalizing prev with
  | nil =>
    intro ls h
    cases ls with
    | nil => rfl
    | cons l ls => simp [lcpChainB] at h
  | cons s ss ih =>
    intro ls h
    cases ls with
    | nil => simp [lcpChainB] at h
    | cons l ls =>
      simp only [lcpChainB, Bool.and_eq_true, decide_eq_true_eq] at h
      obtain ⟨⟨hl, htake⟩, hrest⟩ := h
      have hcur : prev.take l ++ s.drop l = s := by
        have h1 : prev.take l = s.take l := by
          rw [htake]
        rw [h1, List.take_append_drop]
      simp only [List.zipWith_cons_cons, extendByLcp, hcur]
      exact congrArg _ (ih s ls hrest)

/-- C2: `extend_prefix` fails when the lcp array length differs from
the string count or its first entry is nonzero; on the distinct tails
of an LCP-compressed transmission of `source` it rebuilds exactly
`source`. -/
theorem c2_extend_prefix (source : List Str) (lcps : List Nat)
    (hchain : lcpChainB [] source lcps = true) :
    (∀ (tails : List Str) (ls : List Nat),
        ls.length ≠ tails.length ∨ ls.headD 0 ≠ 0 →
        extend_prefix_op tails ls = none) ∧
    extend_prefix_op (List.zipWith (fun l s => s.drop l) lcps source) lcps
      = some source := by
  constructor
  · intro tails ls h
    rcases h with h | h
    · simp [extend_prefix_op, h]
    · unfold extend_prefix_op
      by_cases hl : ls.length ≠ tails.length
      · simp [hl]
      · rw [if_neg hl, if_pos h]
  · have hlen : lcps.length = source.length := lcpChainB_length [] source lcps hchain
    have hzlen : (List.zipWith (fun l s => s.drop l) lcps source).length
        = lcps.length := by
      simp [List.length_zipWith, hlen]
    have hhead : lcps.headD 0 = 0 := by
      cases source with
      | nil => cases lcps with
        | nil => rfl
        | cons l ls => simp [lcpChainB] at hchain
      | cons s ss =>
        cases lcps with
        | nil => simp at hlen
        | cons l ls =>
          simp only [lcpChainB, Bool.and_eq_true, decide_eq_true_eq] at hchain
          have : l ≤ ([] : Str).length := hchain.1.1
          simp at this
          simp [this]
    unfold extend_prefix_op
    rw [hzlen]
    rw [if_neg (by simp), if_neg (by simpa using hhead)]
    rw [extendByLcp_reconstruct [] source lcps hchain]

/-- Witness for C2 at a concrete compressed transmission. -/
theorem c2_extend_prefix_witness :
    lcpChainB [] [[1, 2], [1, 3]] [0, 1] = true ∧
    ((∀ (tails : List Str) (ls : List Nat),
        ls.length ≠ tails.length ∨ ls.headD 0 ≠ 0 →
        extend_prefix_op tails ls = none) ∧
      extend_prefix_op
          (List.zipWith (fun l s => s.drop l) [0, 1] [[1, 2], [1, 3]]) [0, 1]
        = some [[1, 2], [1, 3]]) :=
  ⟨by decide, c2_extend_prefix [[1, 2], [1, 3]] [0, 1] (by decide)⟩

/-! ## Bloom filter: `computeIntervalSizes` (C3)

`computeIntervalSizes` in `sorter/distributed/bloomfilter.hpp` walks a
sorted hash list: for each receiver `i` except the last it takes the
hashes up to `upper_limit = (i+1) * (bloomFilterSize / P) - 1`
(computed in `size_t` arithmetic, hence the explicit `% 2^64`), the
last receiver gets the remainder.  `BloomFilter::bloomFilterSize` is
`std::numeric_limits<uint64_t>::max() = 2^64 - 1`. -/

/-- The `size_t` modulus. -/
def u64 : Nat := 2 ^ 64

/-- The loop of `computeIntervalSizes`; `n` counts the remaining
non-final rounds (`n = P - 1 - i`), `i` is the loop counter. -/
def computeIntervalSizesGo (B P : Nat) : Nat → Nat → List Nat → List Nat
  | 0, _, rest => [rest.length]
  | n + 1, i, rest =>
    let ub := ((i + 1) * (B / P) % u64 + (u64 - 1)) % u64
    let taken := rest.takeWhile (fun h => decide (h ≤ ub))
    taken.length :: computeIntervalSizesGo B P n (i + 1) (rest.drop taken.length)

/-- `computeIntervalSizes(hashes, bloomFilterSize, env)`. -/
def computeIntervalSizes (hashes : List Nat) (B P : Nat) : List Nat :=
  computeIntervalSizesGo B P (P - 1) 0 hashes

/-- The claimed partition: receiver `k` owns hash interval
`[k*2^64/P, (k+1)*2^64/P)` (exact bounds, written multiplicatively). -/
def claimedIntervalSizes (hashes : List Nat) (P : Nat) : List Nat :=
  (List.range P).map (fun k =>
    hashes.countP (fun h => decide (k * u64 ≤ h * P ∧ h * P < (k + 1) * u64)))

/-- The partition the code actually computes: boundaries are multiples
of `(2^64 - 1) / P` (integer division), the last receiver gets the
rest. -/
def amendedIntervalSizes (hashes : List Nat) (P : Nat) : List Nat :=
  (List.range P).map (fun k =>
    if k + 1 < P then
      hashes.countP (fun h =>
        decide (k * ((2 ^ 64 - 1) / P) ≤ h ∧ h < (k + 1) * ((2 ^ 64 - 1) / P)))
    else
      hashes.countP (fun h => decide (k * ((2 ^ 64 - 1) / P) ≤ h)))

/-- C3 counterexample: with two receivers, the hash `2^63 - 1` lies in
the claimed interval of receiver 0 (`[0, 2^63)`) but the code assigns
it to receiver 1, because the boundary is `(2^64-1)/2 - 1 = 2^63 - 2`. -/
theorem c3_counterexample :
    computeIntervalSizes [2 ^ 63 - 1] (2 ^ 64 - 1) 2 = [0, 1] ∧
    claimedIntervalSizes [2 ^ 63 - 1] 2 = [1, 0] ∧
    computeIntervalSizes [2 ^ 63 - 1] (2 ^ 64 - 1) 2 ≠
      claimedIntervalSizes [2 ^ 63 - 1] 2 := by
  refine ⟨by decide, by decide, by decide⟩

theorem sorted_takeWhile_length_eq_countP (u : Nat) :
    ∀ (l : List Nat), List.Pairwise (· ≤ ·) l →
      (l.takeWhile (fun h => decide (h ≤ u))).length
        = l.countP (fun h => decide (h ≤ u)) := by
  intro l
  induction l with
  | nil => intro _; rfl
  | cons a l ih =>
    intro hp
    rw [List.pairwise_cons] at hp
    by_cases ha : a ≤ u
    · rw [List.takeWhile_cons, List.countP_cons]
      simp [ha, ih hp.2]
    · rw [List.takeWhile_cons, List.countP_cons]
      have hd : (decide (a ≤ u)) = false := by simpa using ha
      rw [hd]
      have hz : l.countP (fun h => decide (h ≤ u)) = 0 := by
        rw [List.countP_eq_zero]
        intro h hh
        have := hp.1 h hh
        simp only [decide_eq_true_eq]
        omega
      simp [hz]

theorem countP_eq_zero_of_forall {l : List Nat} {p : Nat → Bool}
    (h : ∀ x ∈ l, p x = false) : l.countP p = 0 := by
  rw [List.countP_eq_zero]
  intro x hx
  simpa using h x hx

theorem computeIntervalSizesGo_sum (B P : Nat) :
    ∀ (n : Nat) (i : Nat) (rest : List Nat),
      (computeIntervalSizesGo B P n i rest).sum = rest.length := by
  intro n
  induction n with
  | zero => intro i rest; simp [computeIntervalSizesGo]
  | succ n ih =>
    intro i rest
    simp only [computeIntervalSizesGo, List.sum_cons, ih]
    rw [List.length_drop]
    have : (rest.takeWhile
        (fun h => decide (h ≤ ((i + 1) * (B / P) % u64 + (u64 - 1)) % u64))).length
        ≤ rest.length :=
      (List.takeWhile_sublist _).length_le
    omega

theorem computeIntervalSizesGo_length (B P : Nat) :
    ∀ (n : Nat) (i : Nat) (rest : List Nat),
      (computeIntervalSizesGo B P n i rest).length = n + 1 := by
  intro n
  induction n with
  | zero => intro i rest; rfl
  | succ n ih => intro i rest; simp [computeIntervalSizesGo, ih]

theorem sorted_dropWhile_gt (u : Nat) :
    ∀ (l : List Nat), List.Pairwise (· ≤ ·) l →
      ∀ x ∈ l.dropWhile (fun h => decide (h ≤ u)), u < x := by
  intro l
  induction l with
  | nil => intro _ x hx; simp [List.dropWhile] at hx
  | cons a l ih =>
    intro hp x hx
    rw [List.pairwise_cons] at hp
    by_cases ha : a ≤ u
    · rw [List.dropWhile_cons] at hx
      simp only [ha, decide_eq_true_eq, if_pos] at hx
      exact ih hp.2 x hx
    · rw [List.dropWhile_cons] at hx
      have hd : decide (a ≤ u) = true ↔ False := by simpa using ha
      simp only [hd, iff_false, decide_eq_true_eq, ha, if_false] at hx
      rcases List.mem_cons.mp hx with rfl | hxl
      · omega
      · have := hp.1 x hxl
        omega

theorem drop_length_takeWhile {α : Type} (p : α → Bool) (l : List α) :
    l.drop (l.takeWhile p).length = l.dropWhile p := by
  induction l with
  | nil => rfl
  | cons a l ih =>
    by_cases hpa : p a = true
    · rw [List.takeWhile_cons, List.dropWhile_cons, if_pos hpa, if_pos hpa]
      simpa using ih
    · rw [List.takeWhile_cons, List.dropWhile_cons,
        if_neg hpa, if_neg hpa]
      rfl

theorem computeIntervalSizesGo_spec (P : Nat) (hP : 0 < P) (hPB : P ≤ 2 ^ 64 - 1) :
    ∀ (n i : Nat) (rest : List Nat), i + n + 1 = P →
      List.Pairwise (· ≤ ·) rest →
      (∀ h ∈ rest, i * ((2 ^ 64 - 1) / P) ≤ h) →
      computeIntervalSizesGo (2 ^ 64 - 1) P n i rest
        = (List.range n).map (fun t =>
            rest.countP (fun h =>
              decide ((i + t) * ((2 ^ 64 - 1) / P) ≤ h ∧
                h < (i + t + 1) * ((2 ^ 64 - 1) / P))))
          ++ [rest.countP (fun h => decide ((P - 1) * ((2 ^ 64 - 1) / P) ≤ h))] := by
  have hm1 : 1 ≤ (2 ^ 64 - 1) / P := (Nat.one_le_div_iff hP).mpr hPB
  intro n
  induction n with
  | zero =>
    intro i rest hiP hsorted hlow
    have hi : i = P - 1 := by omega
    subst hi
    simp only [computeIntervalSizesGo, List.range_zero, List.map_nil, List.nil_append,
      List.cons.injEq, and_true]
    rw [eq_comm, List.countP_eq_length]
    intro a ha
    simpa using hlow a ha
  | succ n ih =>
    intro i rest hiP hsorted hlow
    set m := (2 ^ 64 - 1) / P with hm
    have hprod : (i + 1) * m < u64 := by
      have h1 : (i + 1) * m ≤ P * m := by
        have : i + 1 ≤ P := by omega
        exact Nat.mul_le_mul_right m this
      have h2 : P * m ≤ 2 ^ 64 - 1 := by
        rw [Nat.mul_comm]
        exact Nat.div_mul_le_self _ _
      have : u64 = 2 ^ 64 := rfl
      omega
    have hub : ((i + 1) * m % u64 + (u64 - 1)) % u64 = (i + 1) * m - 1 := by
      rw [Nat.mod_eq_of_lt hprod]
      have h1 : 1 ≤ (i + 1) * m := by
        have : 1 * 1 ≤ (i + 1) * m := Nat.mul_le_mul (by omega) hm1
        omega
      have h2 : (i + 1) * m + (u64 - 1) = ((i + 1) * m - 1) + u64 := by
        have : 0 < u64 := by simp [u64]
        omega
      rw [h2, Nat.add_mod_right, Nat.mod_eq_of_lt (by omega)]
    simp only [computeIntervalSizesGo, hub]
    set ub := (i + 1) * m - 1 with hubdef
    have hA1 : 1 ≤ (i + 1) * m := by
      have := Nat.mul_le_mul (show 1 ≤ i + 1 by omega) hm1
      simpa using this
    have htl := sorted_takeWhile_length_eq_countP ub rest hsorted
    have hdropEq : rest.drop
        (rest.takeWhile (fun h => decide (h ≤ ub))).length
        = rest.dropWhile (fun h => decide (h ≤ ub)) :=
      drop_length_takeWhile _ rest
    have hsplit : rest = rest.takeWhile (fun h => decide (h ≤ ub))
        ++ rest.dropWhile (fun h => decide (h ≤ ub)) :=
      (List.takeWhile_append_dropWhile _ _).symm
    have hdropSorted : List.Pairwise (· ≤ ·)
        (rest.dropWhile (fun h => decide (h ≤ ub))) :=
      List.Pairwise.sublist (List.dropWhile_sublist _) hsorted
    have hdropLow : ∀ h ∈ rest.dropWhile (fun h => decide (h ≤ ub)),
        (i + 1) * m ≤ h := by
      intro h hh
      have := sorted_dropWhile_gt ub rest hsorted h hh
      omega
    have hih := ih (i + 1) (rest.dropWhile (fun h => decide (h ≤ ub)))
      (by omega) hdropSorted hdropLow
    rw [hdropEq, hih, htl]
    have hcnt0 : rest.countP (fun h => decide (h ≤ ub))
        = rest.countP (fun h =>
            decide ((i + 0) * m ≤ h ∧ h < (i + 0 + 1) * m)) := by
      refine List.countP_congr ?_
      intro x hx
      have := hlow x hx
      simp only [decide_eq_true_eq, Nat.add_zero]
      omega
    have htaken0 : ∀ t : Nat, ∀ x ∈ rest.takeWhile (fun h => decide (h ≤ ub)),
        (i + 1 + t) * m ≤ x → False := by
      intro t x hx hge
      have hxu := List.mem_takeWhile_imp hx
      simp only [decide_eq_true_eq] at hxu
      have hmono : (i + 1) * m ≤ (i + 1 + t) * m :=
        Nat.mul_le_mul_right m (by omega)
      omega
    have hcntRange : ∀ t : Nat,
        (rest.dropWhile (fun h => decide (h ≤ ub))).countP (fun h =>
            decide ((i + 1 + t) * m ≤ h ∧ h < (i + 1 + t + 1) * m))
          = rest.countP (fun h =>
            decide ((i + 1 + t) * m ≤ h ∧ h < (i + 1 + t + 1) * m)) := by
      intro t
      conv_rhs => rw [hsplit]
      rw [List.countP_append]
      have hzero : (rest.takeWhile (fun h => decide (h ≤ ub))).countP (fun h =>
          decide ((i + 1 + t) * m ≤ h ∧ h < (i + 1 + t + 1) * m)) = 0 := by
        refine countP_eq_zero_of_forall ?_
        intro x hx
        simp only [decide_eq_false_iff_not, not_and, not_lt]
        intro hge
        exact absurd hge (fun hge => htaken0 t x hx hge)
      omega
    have hcntLast :
        (rest.dropWhile (fun h => decide (h ≤ ub))).countP
            (fun h => decide ((P - 1) * m ≤ h))
          = rest.countP (fun h => decide ((P - 1) * m ≤ h)) := by
      conv_rhs => rw [hsplit]
      rw [List.countP_append]
      have hzero : (rest.takeWhile (fun h => decide (h ≤ ub))).countP
          (fun h => decide ((P - 1) * m ≤ h)) = 0 := by
        refine countP_eq_zero_of_forall ?_
        intro x hx
        have hxu := List.mem_takeWhile_imp hx
        simp only [decide_eq_true_eq] at hxu
        have hmono : (i + 1) * m ≤ (P - 1) * m :=
          Nat.mul_le_mul_right m (by omega)
        simp only [decide_eq_false_iff_not, not_le]
        omega
      omega
    have hmapEq : (List.range n).map (fun t =>
        (rest.dropWhile (fun h => decide (h ≤ ub))).countP (fun h =>
          decide ((i + 1 + t) * m ≤ h ∧ h < (i + 1 + t + 1) * m)))
        = (List.range n).map (fun t =>
            rest.countP (fun h =>
              decide ((i + (t + 1)) * m ≤ h ∧ h < (i + (t + 1) + 1) * m))) := by
      refine List.map_congr_left ?_
      intro t ht
      rw [show i + (t + 1) = i + 1 + t from by omega]
      exact hcntRange t
    rw [List.range_succ_eq_map]
    simp only [List.map_cons, List.map_map, List.cons_append, Function.comp_def,
      Nat.succ_eq_add_one]
    rw [hcnt0, hmapEq, hcntLast]

/-- C3 amended: on a sorted hash list, `computeIntervalSizes` with the
filter size `2^64 - 1` actually used by `BloomFilter` produces exactly
`P` interval sizes summing to the number of hashes; receiver `k < P-1`
owns `[k*m, (k+1)*m)` with `m = (2^64-1)/P` (not `2^64/P` as claimed),
and the last receiver owns the rest. -/
theorem c3_amended (hashes : List Nat) (P : Nat)
    (hsorted : List.Pairwise (· ≤ ·) hashes) (hP : 0 < P) (hPB : P ≤ 2 ^ 64 - 1) :
    computeIntervalSizes hashes (2 ^ 64 - 1) P = amendedIntervalSizes hashes P ∧
    (computeIntervalSizes hashes (2 ^ 64 - 1) P).length = P ∧
    (computeIntervalSizes hashes (2 ^ 64 - 1) P).sum = hashes.length := by
  refine ⟨?_, ?_, ?_⟩
  · obtain ⟨q, rfl⟩ : ∃ q, P = q + 1 := ⟨P - 1, by omega⟩
    unfold computeIntervalSizes
    have hspec := computeIntervalSizesGo_spec (q + 1) hP hPB q 0 hashes
      (by omega) hsorted (by simp)
    simp only [Nat.add_sub_cancel]
    rw [hspec]
    unfold amendedIntervalSizes
    rw [List.range_succ, List.map_append]
    simp only [List.map_cons, List.map_nil]
    have h1 : (List.range q).map (fun t =>
        hashes.countP (fun h =>
          decide ((0 + t) * ((2 ^ 64 - 1) / (q + 1)) ≤ h ∧
            h < (0 + t + 1) * ((2 ^ 64 - 1) / (q + 1)))))
        = (List.range q).map (fun k =>
            if k + 1 < q + 1 then
              hashes.countP (fun h =>
                decide (k * ((2 ^ 64 - 1) / (q + 1)) ≤ h ∧
                  h < (k + 1) * ((2 ^ 64 - 1) / (q + 1))))
            else
              hashes.countP (fun h =>
                decide (k * ((2 ^ 64 - 1) / (q + 1)) ≤ h))) := by
      refine List.map_congr_left ?_
      intro t ht
      rw [List.mem_range] at ht
      rw [if_pos (by omega)]
      simp
    have h2 : [hashes.countP (fun h =>
        decide ((q + 1 - 1) * ((2 ^ 64 - 1) / (q + 1)) ≤ h))]
        = [if q + 1 < q + 1 then
            hashes.countP (fun h =>
              decide (q * ((2 ^ 64 - 1) / (q + 1)) ≤ h ∧
                h < (q + 1) * ((2 ^ 64 - 1) / (q + 1))))
          else
            hashes.countP (fun h =>
              decide (q * ((2 ^ 64 - 1) / (q + 1)) ≤ h))] := by
      rw [if_neg (by omega)]
      simp
    rw [h1, h2]
  · unfold computeIntervalSizes
    rw [computeIntervalSizesGo_length]
    omega
  · unfold computeIntervalSizes
    exact computeIntervalSizesGo_sum _ _ _ _ _

/-- Witness for C3 (amended) at a concrete sorted hash list, P = 2. -/
theorem c3_amended_witness :
    (List.Pairwise (· ≤ ·) [1, 2 ^ 63, 2 ^ 64 - 2] ∧ 0 < 2 ∧ 2 ≤ 2 ^ 64 - 1) ∧
    (computeIntervalSizes [1, 2 ^ 63, 2 ^ 64 - 2] (2 ^ 64 - 1) 2
        = amendedIntervalSizes [1, 2 ^ 63, 2 ^ 64 - 2] 2 ∧
      (computeIntervalSizes [1, 2 ^ 63, 2 ^ 64 - 2] (2 ^ 64 - 1) 2).length = 2 ∧
      (computeIntervalSizes [1, 2 ^ 63, 2 ^ 64 - 2] (2 ^ 64 - 1) 2).sum
        = ([1, 2 ^ 63, 2 ^ 64 - 2] : List Nat).length) :=
  ⟨⟨by decide, by decide, by decide⟩,
    c3_amended [1, 2 ^ 63, 2 ^ 64 - 2] 2 (by decide) (by decide) (by decide)⟩

/-! ## Bloom filter: local duplicate marking (C4)

`BloomFilter::localDuplicateIndices` in
`sorter/distributed/bloomfilter.hpp` walks the hash-sorted
`HashStringIndex` vector with a pivot iterator: a pivot whose successor
carries the same hash opens a run — the pivot gets
`local_duplicate & send_anyway`, every further member of the run gets
`local_duplicate` only; a pivot outside a run that is `lcp_local_root`
gets both flags; finally, the last element gets both flags if it is
`lcp_local_root`.  The loop never visits the last element as a pivot.
The fuel argument below only mirrors the trivially decreasing loop
measure (it equals the list length at the top-level call). -/

/-- `HashStringIndex` from `bloomfilter.hpp`. -/
structure HashStringIndex where
  hashValue : Nat
  stringIndex : Nat
  isLocalDuplicate : Bool := false
  isLocalDuplicateButSendAnyway : Bool := false
  isLcpLocalRoot : Bool := false
deriving DecidableEq, Inhabited

/-- Mark `local_duplicate`. -/
def setDup (v : HashStringIndex) : HashStringIndex :=
  { v with isLocalDuplicate := true }

/-- Mark `local_duplicate` and `send_anyway`. -/
def setDupSend (v : HashStringIndex) : HashStringIndex :=
  { v with isLocalDuplicate := true, isLocalDuplicateButSendAnyway := true }

/-- The pivot loop of `localDuplicateIndices` (fuel-structured). -/
def markLoopFuel : Nat → List HashStringIndex → List HashStringIndex
  | 0, l => l
  | _, [] => []
  | _ + 1, [x] => [x]
  | fuel + 1, x :: y :: rest =>
    if y.hashValue = x.hashValue then
      setDupSend x :: setDup y ::
        ((rest.takeWhile (fun z => decide (z.hashValue = x.hashValue))).map setDup
          ++ markLoopFuel fuel
              (rest.dropWhile (fun z => decide (z.hashValue = x.hashValue))))
    else if x.isLcpLocalRoot then
      setDupSend x :: markLoopFuel fuel (y :: rest)
    else
      x :: markLoopFuel fuel (y :: rest)

/-- The trailing `back()` fix-up: the last element gets both flags when
it is `lcp_local_root`. -/
def markBack : List HashStringIndex → List HashStringIndex
  | [] => []
  | [x] => [if x.isLcpLocalRoot then setDupSend x else x]
  | x :: y :: rest => x :: markBack (y :: rest)

/-- The flag-marking effect of `BloomFilter::localDuplicateIndices` on
the sorted `HashStringIndex` vector. -/
def localDuplicateMarks (l : List HashStringIndex) : List HashStringIndex :=
  if l.isEmpty then [] else markBack (markLoopFuel l.length l)

/-- `BloomFilter::shouldSend`. -/
def shouldSend (v : HashStringIndex) : Bool :=
  !v.isLocalDuplicate || v.isLocalDuplicateButSendAnyway

/-- `std::erase_if(hashStringIndices, std::not_fn(shouldSend))`: the
filtered list subsequently shipped to the filter. -/
def reducedHashStringIndices (l : List HashStringIndex) : List HashStringIndex :=
  l.filter shouldSend

/-- The marking the loop produces before the `back()` fix-up, stated
positionally: an entry is first-of-run if the next entry has the same
hash and the previous one (hash `prev`) does not; it is tail-of-run if
the previous entry has the same hash.  `send_anyway` goes to
first-of-run pivots and to `lcp_local_root` pivots that are not
tail-of-run; the last element is never a pivot. -/
def specGoNB (prev : Option Nat) : List HashStringIndex → List HashStringIndex
  | [] => []
  | [x] =>
    [{ x with isLocalDuplicate :=
        x.isLocalDuplicate || decide (prev = some x.hashValue) }]
  | x :: y :: rest =>
    let tl := decide (prev = some x.hashValue)
    let fr := decide (y.hashValue = x.hashValue) && !tl
    let send := fr || (x.isLcpLocalRoot && !tl)
    { x with
        isLocalDuplicate := x.isLocalDuplicate || (fr || tl || send),
        isLocalDuplicateButSendAnyway := x.isLocalDuplicateButSendAnyway || send }
      :: specGoNB (some x.hashValue) (y :: rest)

/-- The complete amended flag characterization: as `specGoNB`, with the
final element additionally receiving both flags when `lcp_local_root`
(the `back()` fix-up). -/
def specMarkFull (prev : Option Nat) : List HashStringIndex → List HashStringIndex
  | [] => []
  | [x] =>
    [{ x with
        isLocalDuplicate :=
          x.isLocalDuplicate || decide (prev = some x.hashValue) || x.isLcpLocalRoot,
        isLocalDuplicateButSendAnyway :=
          x.isLocalDuplicateButSendAnyway || x.isLcpLocalRoot }]
  | x :: y :: rest =>
    let tl := decide (prev = some x.hashValue)
    let fr := decide (y.hashValue = x.hashValue) && !tl
    let send := fr || (x.isLcpLocalRoot && !tl)
    { x with
        isLocalDuplicate := x.isLocalDuplicate || (fr || tl || send),
        isLocalDuplicateButSendAnyway := x.isLocalDuplicateButSendAnyway || send }
      :: specMarkFull (some x.hashValue) (y :: rest)

theorem specGoNB_ne_nil (prev : Option Nat) (y : HashStringIndex)
    (rest : List HashStringIndex) : specGoNB prev (y :: rest) ≠ [] := by
  cases rest <;> simp [specGoNB]

theorem markBack_cons (a : HashStringIndex) (l : List HashStringIndex)
    (h : l ≠ []) : markBack (a :: l) = a :: markBack l := by
  cases l with
  | nil => exact absurd rfl h
  | cons b t => rfl

theorem mark_both : ∀ N : Nat,
    (∀ (l : List HashStringIndex) (prev : Option Nat) (fuel : Nat),
      l.length ≤ N → l.length ≤ fuel →
      (∀ x ∈ l.head?, prev ≠ some x.hashValue) →
      markLoopFuel fuel l = specGoNB prev l) ∧
    (∀ (l : List HashStringIndex) (h : Nat) (fuel : Nat),
      l.length ≤ N → l.length ≤ fuel →
      (l.takeWhile (fun z => decide (z.hashValue = h))).map setDup
        ++ markLoopFuel fuel (l.dropWhile (fun z => decide (z.hashValue = h)))
        = specGoNB (some h) l) := by
  intro N
  induction N with
  | zero =>
    constructor
    · intro l prev fuel hN _ _
      have : l = [] := List.length_eq_zero.mp (by omega)
      subst this
      cases fuel <;> rfl
    · intro l h fuel hN _
      have : l = [] := List.length_eq_zero.mp (by omega)
      subst this
      cases fuel <;> rfl
  | succ N ih =>
    have hB : ∀ (l : List HashStringIndex) (prev : Option Nat) (fuel : Nat),
        l.length ≤ N + 1 → l.length ≤ fuel →
        (∀ x ∈ l.head?, prev ≠ some x.hashValue) →
        markLoopFuel fuel l = specGoNB prev l := by
      intro l prev fuel hN hfuel hprev
      match l, fuel with
      | [], 0 => rfl
      | [], _ + 1 => rfl
      | [x], f + 1 =>
        have hx := hprev x (by simp)
        simp only [markLoopFuel, specGoNB]
        have : decide (prev = some x.hashValue) = false := by simpa using hx
        simp [this]
      | x :: y :: rest, f + 1 =>
        have hx := hprev x (by simp)
        have htl : decide (prev = some x.hashValue) = false := by simpa using hx
        by_cases hxy : y.hashValue = x.hashValue
        · have ht : (y :: rest).takeWhile (fun z => decide (z.hashValue = x.hashValue))
              = y :: rest.takeWhile (fun z => decide (z.hashValue = x.hashValue)) := by
            simp [List.takeWhile_cons, hxy]
          have hd2 : (y :: rest).dropWhile (fun z => decide (z.hashValue = x.hashValue))
              = rest.dropWhile (fun z => decide (z.hashValue = x.hashValue)) := by
            simp [List.dropWhile_cons, hxy]
          have hA := ih.2 (y :: rest) x.hashValue f
            (by simp at hN ⊢; omega) (by simp at hfuel ⊢; omega)
          rw [ht, hd2, List.map_cons, List.cons_append] at hA
          simp only [markLoopFuel, if_pos hxy, specGoNB, htl]
          rw [← hA]
          simp [setDup, setDupSend, hxy]
        · have htail := ih.1 (y :: rest) (some x.hashValue) f
            (by simp at hN ⊢; omega) (by simp at hfuel ⊢; omega)
            (by intro z hz; simp at hz; subst hz; simp; omega)
          by_cases hroot : x.isLcpLocalRoot
          · simp only [markLoopFuel, if_neg hxy, if_pos hroot, specGoNB, htl]
            rw [htail]
            simp [setDupSend, hroot, hxy]
          · have hrootf : x.isLcpLocalRoot = false := by simpa using hroot
            simp only [markLoopFuel, if_neg hxy, hrootf,
              Bool.false_eq_true, if_false, specGoNB, htl]
            rw [htail]
            simp [hrootf, hxy]
            rw [← hrootf]
    refine ⟨hB, ?_⟩
    intro l h fuel hN hfuel
    match l with
    | [] => cases fuel <;> rfl
    | z :: rest =>
      by_cases hz : z.hashValue = h
      · match rest with
        | [] =>
          have ht : ([z] : List HashStringIndex).takeWhile
              (fun z => decide (z.hashValue = h)) = [z] := by simp [hz]
          have hd : ([z] : List HashStringIndex).dropWhile
              (fun z => decide (z.hashValue = h)) = [] := by simp [hz]
          have hmf : markLoopFuel fuel ([] : List HashStringIndex) = [] := by
            cases fuel <;> rfl
          rw [ht, hd, hmf]
          simp [specGoNB, setDup, hz]
        | w :: rest2 =>
          have ht : (z :: w :: rest2).takeWhile (fun z => decide (z.hashValue = h))
              = z :: ((w :: rest2).takeWhile (fun z => decide (z.hashValue = h))) := by
            simp [List.takeWhile_cons, hz]
          have hd : (z :: w :: rest2).dropWhile (fun z => decide (z.hashValue = h))
              = (w :: rest2).dropWhile (fun z => decide (z.hashValue = h)) := by
            simp [List.dropWhile_cons, hz]
          have hA := ih.2 (w :: rest2) h fuel
            (by simp at hN ⊢; omega) (by simp at hfuel ⊢; omega)
          rw [ht, hd, List.map_cons, List.cons_append, hA]
          simp only [specGoNB]
          simp [setDup, hz]
      · have hzf : decide (z.hashValue = h) = false := by simpa using hz
        rw [List.takeWhile_cons, List.dropWhile_cons, hzf]
        simp only [Bool.false_eq_true, if_false, List.map_nil, List.nil_append]
        exact hB (z :: rest) (some h) fuel hN hfuel
          (by intro w hw; simp at hw; subst hw; simp; omega)

theorem markBack_specGoNB : ∀ (N : Nat) (l : List HashStringIndex)
    (prev : Option Nat), l.length ≤ N →
    markBack (specGoNB prev l) = specMarkFull prev l := by
  intro N
  induction N with
  | zero =>
    intro l prev hN
    have : l = [] := List.length_eq_zero.mp (by omega)
    subst this
    rfl
  | succ N ih =>
    intro l prev hN
    match l with
    | [] => rfl
    | [x] =>
      by_cases hroot : x.isLcpLocalRoot
      · simp [specGoNB, markBack, specMarkFull, hroot, setDupSend]
      · have hrootf : x.isLcpLocalRoot = false := by simpa using hroot
        simp [specGoNB, markBack, specMarkFull, hrootf]
    | x :: y :: rest =>
      simp only [specGoNB, specMarkFull]
      rw [markBack_cons _ _ (specGoNB_ne_nil _ y rest)]
      rw [ih (y :: rest) (some x.hashValue) (by simp at hN ⊢; omega)]

/-- The flag assignment computed by `localDuplicateIndices` equals the
positional characterization. -/
theorem localDuplicateMarks_eq_spec (l : List HashStringIndex) :
    localDuplicateMarks l = specMarkFull none l := by
  cases l with
  | nil => rfl
  | cons a t =>
    unfold localDuplicateMarks
    simp only [List.isEmpty_cons, Bool.false_eq_true, if_false]
    rw [(mark_both (a :: t).length).1 (a :: t) none (a :: t).length le_rfl le_rfl
      (by intro x hx; simp)]
    exact markBack_specGoNB (a :: t).length (a :: t) none le_rfl

theorem specMarkFull_dup : ∀ (N : Nat) (l : List HashStringIndex)
    (prev : Option Nat) (i : Nat), l.length ≤ N → i < l.length →
    ((i = 0 ∧ prev = some (l.getD 0 default).hashValue) ∨
     (0 < i ∧ (l.getD (i - 1) default).hashValue = (l.getD i default).hashValue) ∨
     (i + 1 < l.length ∧
       (l.getD (i + 1) default).hashValue = (l.getD i default).hashValue)) →
    ((specMarkFull prev l).getD i default).isLocalDuplicate = true := by
  intro N
  induction N with
  | zero =>
    intro l prev i hN hi _
    omega
  | succ N ih =>
    intro l prev i hN hi hcond
    match l, i with
    | [x], 0 =>
      rcases hcond with ⟨_, hprev⟩ | ⟨h0, _⟩ | ⟨h1, _⟩
      · simp only [List.getD_cons_zero] at hprev
        simp [specMarkFull, hprev]
      · omega
      · simp at h1
    | x :: y :: rest, 0 =>
      rcases hcond with ⟨_, hprev⟩ | ⟨h0, _⟩ | ⟨_, hnext⟩
      · simp only [List.getD_cons_zero] at hprev
        simp [specMarkFull, hprev]
      · omega
      · simp only [List.getD_cons_succ, List.getD_cons_zero] at hnext
        by_cases htl : prev = some x.hashValue
        · simp [specMarkFull, htl]
        · simp [specMarkFull, htl, hnext]
    | x :: y :: rest, j + 1 =>
      have hlen : j < (y :: rest).length := by simp at hi ⊢; omega
      have hstep : (specMarkFull prev (x :: y :: rest)).getD (j + 1) default
          = (specMarkFull (some x.hashValue) (y :: rest)).getD j default := by
        simp [specMarkFull]
      rw [hstep]
      refine ih (y :: rest) (some x.hashValue) j (by simp at hN ⊢; omega) hlen ?_
      rcases hcond with ⟨hj, _⟩ | ⟨_, heq⟩ | ⟨hnl, hnext⟩
      · omega
      · match j with
        | 0 =>
          left
          refine ⟨rfl, ?_⟩
          simp only [Nat.add_sub_cancel] at heq
          simp only [List.getD_cons_zero, List.getD_cons_succ] at heq ⊢
          rw [heq]
        | k + 1 =>
          right; left
          refine ⟨by omega, ?_⟩
          simpa [List.getD_cons_succ] using heq
      · right; right
        refine ⟨by simp at hnl ⊢; omega, ?_⟩
        simpa [List.getD_cons_succ] using hnext

/-- C4 counterexample: in the sorted vector
`[(hash 5, idx 0), (hash 5, idx 1, lcp_local_root), (hash 7, idx 2)]`
entry 1 is an `lcp_local_root` member of the run of hash 5, yet the
code leaves its `send_anyway` flag clear (the claim demands
`send_anyway` on every `lcp_local_root` entry). -/
theorem c4_counterexample :
    ((localDuplicateMarks
        [{ hashValue := 5, stringIndex := 0 },
         { hashValue := 5, stringIndex := 1, isLcpLocalRoot := true },
         { hashValue := 7, stringIndex := 2 }]).getD 1 default).isLcpLocalRoot
      = true ∧
    ((localDuplicateMarks
        [{ hashValue := 5, stringIndex := 0 },
         { hashValue := 5, stringIndex := 1, isLcpLocalRoot := true },
         { hashValue := 7, stringIndex := 2 }]).getD 1 default).isLocalDuplicate
      = true ∧
    ((localDuplicateMarks
        [{ hashValue := 5, stringIndex := 0 },
         { hashValue := 5, stringIndex := 1, isLcpLocalRoot := true },
         { hashValue := 7, stringIndex := 2 }]).getD 1
          default).isLocalDuplicateButSendAnyway = false := by
  refine ⟨by decide, by decide, by decide⟩

/-- C4 amended: on a hash-sorted vector the marking pass realizes
exactly the flag assignment `specMarkFull none`: every member of a run
of equal hashes is marked `local_duplicate`; `send_anyway` goes to the
first member of each run, to `lcp_local_root` entries that are not
non-first run members, and to the last entry when `lcp_local_root` —
but not to an `lcp_local_root` entry strictly inside a run.  The list
shipped to the filter is exactly the entries with
`!local_duplicate || send_anyway`. -/
theorem c4_amended (l : List HashStringIndex)
    (_hsorted : List.Pairwise (fun a b => a.hashValue ≤ b.hashValue) l) :
    localDuplicateMarks l = specMarkFull none l ∧
    reducedHashStringIndices (localDuplicateMarks l)
      = (specMarkFull none l).filter
          (fun v => !v.isLocalDuplicate || v.isLocalDuplicateButSendAnyway) ∧
    (∀ i, i < l.length →
      ((0 < i ∧ (l.getD (i - 1) default).hashValue
          = (l.getD i default).hashValue) ∨
       (i + 1 < l.length ∧ (l.getD (i + 1) default).hashValue
          = (l.getD i default).hashValue)) →
      ((localDuplicateMarks l).getD i default).isLocalDuplicate = true) := by
  refine ⟨localDuplicateMarks_eq_spec l, ?_, ?_⟩
  · rw [localDuplicateMarks_eq_spec l]
    rfl
  · intro i hi hcond
    rw [localDuplicateMarks_eq_spec l]
    refine specMarkFull_dup l.length l none i le_rfl hi ?_
    right
    exact hcond

/-- Witness for C4 (amended) at a concrete sorted vector. -/
theorem c4_amended_witness :
    List.Pairwise (fun a b => a.hashValue ≤ b.hashValue)
      [({ hashValue := 5, stringIndex := 0 } : HashStringIndex),
       { hashValue := 5, stringIndex := 1, isLcpLocalRoot := true },
       { hashValue := 7, stringIndex := 2 }] ∧
    (localDuplicateMarks
        [({ hashValue := 5, stringIndex := 0 } : HashStringIndex),
         { hashValue := 5, stringIndex := 1, isLcpLocalRoot := true },
         { hashValue := 7, stringIndex := 2 }]
      = specMarkFull none
        [({ hashValue := 5, stringIndex := 0 } : HashStringIndex),
         { hashValue := 5, stringIndex := 1, isLcpLocalRoot := true },
         { hashValue := 7, stringIndex := 2 }] ∧
    reducedHashStringIndices (localDuplicateMarks
        [({ hashValue := 5, stringIndex := 0 } : HashStringIndex),
         { hashValue := 5, stringIndex := 1, isLcpLocalRoot := true },
         { hashValue := 7, stringIndex := 2 }])
      = (specMarkFull none
          [({ hashValue := 5, stringIndex := 0 } : HashStringIndex),
           { hashValue := 5, stringIndex := 1, isLcpLocalRoot := true },
           { hashValue := 7, stringIndex := 2 }]).filter
          (fun v => !v.isLocalDuplicate || v.isLocalDuplicateButSendAnyway) ∧
    (∀ i, i < ([({ hashValue := 5, stringIndex := 0 } : HashStringIndex),
         { hashValue := 5, stringIndex := 1, isLcpLocalRoot := true },
         { hashValue := 7, stringIndex := 2 }] :
           List HashStringIndex).length →
      ((0 < i ∧ (([({ hashValue := 5, stringIndex := 0 } : HashStringIndex),
         { hashValue := 5, stringIndex := 1, isLcpLocalRoot := true },
         { hashValue := 7, stringIndex := 2 }] :
           List HashStringIndex).getD (i - 1) default).hashValue
          = (([({ hashValue := 5, stringIndex := 0 } : HashStringIndex),
         { hashValue := 5, stringIndex := 1, isLcpLocalRoot := true },
         { hashValue := 7, stringIndex := 2 }] :
           List HashStringIndex).getD i default).hashValue) ∨
       (i + 1 < ([({ hashValue := 5, stringIndex := 0 } : HashStringIndex),
         { hashValue := 5, stringIndex := 1, isLcpLocalRoot := true },
         { hashValue := 7, stringIndex := 2 }] :
           List HashStringIndex).length ∧
         (([({ hashValue := 5, stringIndex := 0 } : HashStringIndex),
         { hashValue := 5, stringIndex := 1, isLcpLocalRoot := true },
         { hashValue := 7, stringIndex := 2 }] :
           List HashStringIndex).getD (i + 1) default).hashValue
          = (([({ hashValue := 5, stringIndex := 0 } : HashStringIndex),
         { hashValue := 5, stringIndex := 1, isLcpLocalRoot := true },
         { hashValue := 7, stringIndex := 2 }] :
           List HashStringIndex).getD i default).hashValue)) →
      ((localDuplicateMarks
          [({ hashValue := 5, stringIndex := 0 } : HashStringIndex),
           { hashValue := 5, stringIndex := 1, isLcpLocalRoot := true },
           { hashValue := 7, stringIndex := 2 }]).getD i
            default).isLocalDuplicate = true)) :=
  ⟨by decide,
    c4_amended
      [({ hashValue := 5, stringIndex := 0 } : HashStringIndex),
       { hashValue := 5, stringIndex := 1, isLcpLocalRoot := true },
       { hashValue := 7, stringIndex := 2 }] (by decide)⟩

/-! ## Bloom filter: hash generation and `setDepth` (C5)

`BloomFilter::generateHashStringIndices` (candidate overload) walks the
candidate indices: a candidate whose string is shorter than the probe
depth is recorded as EOS candidate; a candidate that immediately
follows its predecessor with `lcps[cur] ≥ depth` becomes a local LCP
duplicate (possibly marking the previously emitted entry as
`lcp_local_root`); otherwise its depth-prefix is hashed.
`BloomFilter::setDepth` (candidate overload) then writes `depth` into
`results` for every candidate and overwrites EOS candidates with their
own string length.  The hash policy is abstracted as a function
argument. -/

/-- Result triple of `generateHashStringIndices`. -/
structure GenOut where
  hashStringIndices : List HashStringIndex
  localDups : List Nat
  eosCandidates : List Nat
deriving DecidableEq

/-- `hashStringIndices.back().isLcpLocalRoot = true` when the back
entry's string index immediately precedes `cur` (no-op on an empty
vector, where the C++ `back()` would be undefined). -/
def markRootOnLast (cur : Nat) : List HashStringIndex → List HashStringIndex
  | [] => []
  | [v] => [if v.stringIndex + 1 = cur then { v with isLcpLocalRoot := true } else v]
  | v :: w :: rest => v :: markRootOnLast cur (w :: rest)

/-- The candidate loop of `generateHashStringIndices`. -/
def generateHSIGo (hashFn : Str → Nat → Nat) (ss : List Str) (lcps : List Nat)
    (depth : Nat) : List Nat → Nat → GenOut → GenOut
  | [], _, acc => acc
  | cur :: rest, prev, acc =>
    let s := ss.getD cur []
    if depth > s.length then
      generateHSIGo hashFn ss lcps depth rest cur
        { acc with eosCandidates := acc.eosCandidates ++ [cur] }
    else if prev + 1 = cur ∧ lcps.getD cur 0 ≥ depth then
      generateHSIGo hashFn ss lcps depth rest cur
        { acc with
            hashStringIndices := markRootOnLast cur acc.hashStringIndices,
            localDups := acc.localDups ++ [cur] }
    else
      generateHSIGo hashFn ss lcps depth rest cur
        { acc with hashStringIndices :=
            acc.hashStringIndices ++ [⟨hashFn s depth, cur, false, false, false⟩] }

/-- `BloomFilter::generateHashStringIndices` (candidate overload). -/
def generateHashStringIndices (hashFn : Str → Nat → Nat) (ss : List Str)
    (lcps : List Nat) (candidates : List Nat) (depth : Nat) : GenOut :=
  match candidates with
  | [] => ⟨[], [], []⟩
  | c :: rest =>
    let s := ss.getD c []
    let acc0 : GenOut :=
      if depth > s.length then ⟨[], [], [c]⟩
      else ⟨[⟨hashFn s depth, c, false, false, false⟩], [], []⟩
    generateHSIGo hashFn ss lcps depth rest c acc0

/-- `BloomFilter::setDepth` (candidates overload): every candidate gets
`depth`, then every EOS candidate gets its own string length. -/
def setDepth (ss : List Str) (depth : Nat) (candidates eosCandidates : List Nat)
    (results : List Nat) : List Nat :=
  eosCandidates.foldl (fun r c => r.set c ((ss.getD c []).length))
    (candidates.foldl (fun r c => r.set c depth) results)

theorem foldl_set_length (f : Nat → Nat) :
    ∀ (idxs : List Nat) (r : List Nat),
      (idxs.foldl (fun r c => r.set c (f c)) r).length = r.length := by
  intro idxs
  induction idxs with
  | nil => intro r; rfl
  | cons c rest ih => intro r; simp [List.foldl_cons, ih]

theorem foldl_set_not_mem (f : Nat → Nat) :
    ∀ (idxs : List Nat) (r : List Nat) (i : Nat), i ∉ idxs →
      (idxs.foldl (fun r c => r.set c (f c)) r).getD i 0 = r.getD i 0 := by
  intro idxs
  induction idxs with
  | nil => intro r i _; rfl
  | cons c rest ih =>
    intro r i hi
    simp only [List.mem_cons, not_or] at hi
    rw [List.foldl_cons, ih _ i hi.2]
    have : (r.set c (f c)).getD i 0 = r.getD i 0 := by
      simp only [List.getD_eq_getElem?_getD]
      rw [List.getElem?_set_ne (fun h => hi.1 h.symm)]
    rw [this]

theorem foldl_set_mem (f : Nat → Nat) :
    ∀ (idxs : List Nat) (r : List Nat) (i : Nat), i ∈ idxs → i < r.length →
      (idxs.foldl (fun r c => r.set c (f c)) r).getD i 0 = f i := by
  intro idxs
  induction idxs with
  | nil => intro r i hi _; simp at hi
  | cons c rest ih =>
    intro r i hi hlen
    rw [List.foldl_cons]
    by_cases hmem : i ∈ rest
    · exact ih _ i hmem (by simp [hlen])
    · have hic : i = c := by
        rcases List.mem_cons.mp hi with h | h
        · exact h
        · exact absurd h hmem
      subst hic
      rw [foldl_set_not_mem f rest _ i hmem]
      simp only [List.getD_eq_getElem?_getD]
      rw [List.getElem?_set_self (by simpa using hlen)]
      rfl

theorem generateHSIGo_eos_mem (hashFn : Str → Nat → Nat) (ss : List Str)
    (lcps : List Nat) (depth : Nat) :
    ∀ (cands : List Nat) (prev : Nat) (acc : GenOut) (c : Nat),
      c ∈ (generateHSIGo hashFn ss lcps depth cands prev acc).eosCandidates ↔
        c ∈ acc.eosCandidates ∨ (c ∈ cands ∧ (ss.getD c []).length < depth) := by
  intro cands
  induction cands with
  | nil =>
    intro prev acc c
    simp [generateHSIGo]
  | cons cur rest ih =>
    intro prev acc c
    simp only [generateHSIGo]
    by_cases hlen : depth > (ss.getD cur []).length
    · rw [if_pos hlen, ih]
      simp only [List.mem_append, List.mem_singleton, List.mem_cons,
        List.not_mem_nil, or_false]
      constructor
      · rintro (⟨h | rfl⟩ | ⟨h1, h2⟩)
        · exact Or.inl h
        · exact Or.inr ⟨Or.inl rfl, hlen⟩
        · exact Or.inr ⟨Or.inr h1, h2⟩
      · rintro (h | ⟨rfl | h1, h2⟩)
        · exact Or.inl (Or.inl h)
        · exact Or.inl (Or.inr rfl)
        · exact Or.inr ⟨h1, h2⟩
    · rw [if_neg hlen]
      by_cases hlcp : prev + 1 = cur ∧ lcps.getD cur 0 ≥ depth
      · rw [if_pos hlcp, ih]
        simp only [List.mem_cons]
        constructor
        · rintro (h | ⟨h1, h2⟩)
          · exact Or.inl h
          · exact Or.inr ⟨Or.inr h1, h2⟩
        · rintro (h | ⟨rfl | h1, h2⟩)
          · exact Or.inl h
          · omega
          · exact Or.inr ⟨h1, h2⟩
      · rw [if_neg hlcp, ih]
        simp only [List.mem_cons]
        constructor
        · rintro (h | ⟨h1, h2⟩)
          · exact Or.inl h
          · exact Or.inr ⟨Or.inr h1, h2⟩
        · rintro (h | ⟨rfl | h1, h2⟩)
          · exact Or.inl h
          · omega
          · exact Or.inr ⟨h1, h2⟩

/-- EOS candidates are exactly the candidates whose string is shorter
than the probe depth. -/
theorem generateHashStringIndices_eos (hashFn : Str → Nat → Nat) (ss : List Str)
    (lcps : List Nat) (candidates : List Nat) (depth : Nat) (c : Nat) :
    c ∈ (generateHashStringIndices hashFn ss lcps candidates depth).eosCandidates ↔
      c ∈ candidates ∧ (ss.getD c []).length < depth := by
  match candidates with
  | [] => simp [generateHashStringIndices]
  | c0 :: rest =>
    simp only [generateHashStringIndices]
    by_cases hlen : depth > (ss.getD c0 []).length
    · rw [if_pos hlen, generateHSIGo_eos_mem]
      simp only [List.mem_cons]
      constructor
      · rintro ((rfl | h) | ⟨h1, h2⟩)
        · exact ⟨Or.inl rfl, hlen⟩
        · cases h
        · exact ⟨Or.inr h1, h2⟩
      · rintro ⟨rfl | h1, h2⟩
        · exact Or.inl (Or.inl rfl)
        · exact Or.inr ⟨h1, h2⟩
    · rw [if_neg hlen, generateHSIGo_eos_mem]
      simp only [List.not_mem_nil, false_or, List.mem_cons]
      constructor
      · rintro ⟨h1, h2⟩
        exact ⟨Or.inr h1, h2⟩
      · rintro ⟨rfl | h1, h2⟩
        · omega
        · exact ⟨h1, h2⟩

/-- C5: in a filter round at depth `d`, every candidate shorter than
`d` is recorded as an EOS candidate and its distinguishing depth
becomes its own length; every other candidate — in particular every
candidate outside the returned duplicate set — ends the round with
distinguishing depth `d`. -/
theorem c5_eos_and_depth (hashFn : Str → Nat → Nat) (ss : List Str)
    (lcps : List Nat) (candidates : List Nat) (depth : Nat) (results : List Nat)
    (dupSet : List Nat)
    (hres : results.length = ss.length)
    (hcand : ∀ c ∈ candidates, c < ss.length) :
    (∀ c ∈ candidates, (ss.getD c []).length < depth →
      c ∈ (generateHashStringIndices hashFn ss lcps candidates depth).eosCandidates ∧
      (setDepth ss depth candidates
          (generateHashStringIndices hashFn ss lcps candidates depth).eosCandidates
          results).getD c 0 = (ss.getD c []).length) ∧
    (∀ c ∈ candidates, depth ≤ (ss.getD c []).length → c ∉ dupSet →
      (setDepth ss depth candidates
          (generateHashStringIndices hashFn ss lcps candidates depth).eosCandidates
          results).getD c 0 = depth) := by
  constructor
  · intro c hc hshort
    have heos : c ∈ (generateHashStringIndices hashFn ss lcps candidates
        depth).eosCandidates :=
      (generateHashStringIndices_eos hashFn ss lcps candidates depth c).mpr
        ⟨hc, hshort⟩
    refine ⟨heos, ?_⟩
    unfold setDepth
    rw [foldl_set_mem (fun c => (ss.getD c []).length) _ _ c heos]
    rw [foldl_set_length]
    rw [hres]
    exact hcand c hc
  · intro c hc hlong hdup
    have heos : c ∉ (generateHashStringIndices hashFn ss lcps candidates
        depth).eosCandidates := by
      rw [generateHashStringIndices_eos]
      rintro ⟨_, h⟩
      omega
    unfold setDepth
    rw [foldl_set_not_mem (fun c => (ss.getD c []).length) _ _ c heos]
    rw [foldl_set_mem (fun _ => depth) _ _ c hc (by rw [hres]; exact hcand c hc)]

/-- Witness for C5 at a concrete round. -/
theorem c5_eos_and_depth_witness :
    (([9, 9, 9] : List Nat).length = ([[1, 2], [3], [4, 5, 6]] : List Str).length ∧
      (∀ c ∈ ([0, 1, 2] : List Nat),
        c < ([[1, 2], [3], [4, 5, 6]] : List Str).length)) ∧
    ((∀ c ∈ ([0, 1, 2] : List Nat),
        (([[1, 2], [3], [4, 5, 6]] : List Str).getD c []).length < 2 →
        c ∈ (generateHashStringIndices (fun _ _ => 0) [[1, 2], [3], [4, 5, 6]]
            [0, 0, 0] [0, 1, 2] 2).eosCandidates ∧
        (setDepth [[1, 2], [3], [4, 5, 6]] 2 [0, 1, 2]
            (generateHashStringIndices (fun _ _ => 0) [[1, 2], [3], [4, 5, 6]]
              [0, 0, 0] [0, 1, 2] 2).eosCandidates
            [9, 9, 9]).getD c 0
          = (([[1, 2], [3], [4, 5, 6]] : List Str).getD c []).length) ∧
      (∀ c ∈ ([0, 1, 2] : List Nat),
        2 ≤ (([[1, 2], [3], [4, 5, 6]] : List Str).getD c []).length →
        c ∉ ([] : List Nat) →
        (setDepth [[1, 2], [3], [4, 5, 6]] 2 [0, 1, 2]
            (generateHashStringIndices (fun _ _ => 0) [[1, 2], [3], [4, 5, 6]]
              [0, 0, 0] [0, 1, 2] 2).eosCandidates
            [9, 9, 9]).getD c 0 = 2)) :=
  ⟨⟨by decide, by decide⟩,
    c5_eos_and_depth (fun _ _ => 0) [[1, 2], [3], [4, 5, 6]] [0, 0, 0]
      [0, 1, 2] 2 [9, 9, 9] [] (by decide) (by decide)⟩

/-! ## Golomb codec (C6, C7)

The per-interval packet framing, the `b` selection and the decode loop
are translated from `AllToAllHashesGolomb::alltoallv` in
`sorter/distributed/bloomfilter.hpp`.  The codec itself
(`getB`, `getDeltaEncoding`, `getDeltaDecoding` from
`encoding/golomb_encoding.hpp`) is not under src/, so it is modelled
from the spec (§4.8): `b = max(1, round(U·ln 2 / n))`, deltas between
successive hashes Golomb-coded (unary quotient, fixed-width remainder),
decode reverses the process. -/

/-- Little-endian fixed-width bits of a value. -/
def toBits : Nat → Nat → List Nat
  | 0, _ => []
  | w + 1, v => v % 2 :: toBits w (v / 2)

/-- Value of a little-endian bit list. -/
def fromBits : List Nat → Nat
  | [] => 0
  | b :: rest => b + 2 * fromBits rest

/-- Width of the binary remainder part for parameter `b`. -/
def remWidth (b : Nat) : Nat := Nat.clog 2 b

/-- Modelled from the spec: one Golomb codeword — unary quotient
(ones terminated by a zero) followed by the fixed-width remainder. -/
def golombEncodeOne (b v : Nat) : List Nat :=
  List.replicate (v / b) 1 ++ 0 :: toBits (remWidth b) (v % b)

/-- Read a unary count: leading ones up to the first non-one, which is
consumed. -/
def takeUnary : List Nat → Nat × List Nat
  | [] => (0, [])
  | x :: rest =>
    if x = 1 then
      let r := takeUnary rest
      (r.1 + 1, r.2)
    else (0, rest)

theorem takeUnary_snd_le : ∀ (l : List Nat), (takeUnary l).2.length ≤ l.length := by
  intro l
  induction l with
  | nil => simp [takeUnary]
  | cons x rest ih =>
    by_cases hx : x = 1
    · simp only [takeUnary, if_pos hx]
      simp only [List.length_cons]
      omega
    · simp [takeUnary, hx]

/-- Modelled from the spec: decode a Golomb-coded stream (fuel-indexed;
every codeword consumes at least its separator, so the stream length is
enough fuel). -/
def golombDecodeFuel (b : Nat) : Nat → List Nat → List Nat
  | 0, _ => []
  | _, [] => []
  | fuel + 1, x :: rest =>
    let u := takeUnary (x :: rest)
    (u.1 * b + fromBits (u.2.take (remWidth b)))
      :: golombDecodeFuel b fuel (u.2.drop (remWidth b))

/-- Decode an entire Golomb-coded stream. -/
def golombDecodeAll (b : Nat) (l : List Nat) : List Nat :=
  golombDecodeFuel b l.length l

/-- Modelled from the spec: Golomb-code the deltas between successive
values (the first value is coded against `prev`, `0` at interval
start). -/
def getDeltaEncoding (b prev : Nat) : List Nat → List Nat
  | [] => []
  | v :: vs => golombEncodeOne b (v - prev) ++ getDeltaEncoding b v vs

/-- Rebuild absolute values from decoded deltas. -/
def prefixSums (prev : Nat) : List Nat → List Nat
  | [] => []
  | d :: ds => (prev + d) :: prefixSums (prev + d) ds

/-- Modelled from the spec: `getDeltaDecoding` — decode the codewords
and accumulate. -/
def getDeltaDecoding (b : Nat) (l : List Nat) : List Nat :=
  prefixSums 0 (golombDecodeAll b l)

/-- Modelled from the spec: `getB(U, n) = max(1, round(U·ln 2 / n))`
from `encoding/golomb_encoding.hpp`. -/
noncomputable def getB (U n : Nat) : Nat :=
  max 1 (round ((U : ℝ) * Real.log 2 / (n : ℝ))).toNat

/-- The `b` actually used by the bloom-filter-size overload of
`AllToAllHashesGolomb::alltoallv` (lines 168-180): `getB` with the
result 1 replaced by 20000000000. -/
noncomputable def bFilterUsed (U n : Nat) : Nat :=
  if getB U n = 1 then 20000000000 else getB U n

/-- The `b` actually used by the interval-range overload
(lines 240-254): `getB` clamped to at least 8. -/
noncomputable def bRangeUsed (U n : Nat) : Nat :=
  if getB U n < 8 then 8 else getB U n

/-- The per-interval encode loop of `AllToAllHashesGolomb::alltoallv`:
empty intervals contribute nothing to the stream; a non-empty interval
becomes the packet `[payload_len, b, delta-stream]` with
`payload_len = 1 + |stream|` (counting `b`). -/
def golombEncodeIntervals (bSel : Nat → Nat) : List Nat → List Nat → List Nat
  | _, [] => []
  | data, sz :: sizes =>
    if sz = 0 then golombEncodeIntervals bSel data sizes
    else
      (1 + (getDeltaEncoding (bSel sz) 0 (data.take sz)).length)
        :: bSel sz :: getDeltaEncoding (bSel sz) 0 (data.take sz)
        ++ golombEncodeIntervals bSel (data.drop sz) sizes

/-- The encode side of the first `alltoallv` overload: `b` derived from
`bloomFilterSize / env.size()`. -/
noncomputable def alltoallvGolombEncode (sendData intervalSizes : List Nat)
    (bloomFilterSize P : Nat) : List Nat :=
  golombEncodeIntervals (fun n => bFilterUsed (bloomFilterSize / P) n)
    sendData intervalSizes

/-- The interval-range encode overload (second `alltoallv`): `b`
derived per interval from `intervalRange[j]`. -/
noncomputable def golombEncodeIntervalsRange :
    List Nat → List Nat → List Nat → List Nat
  | data, sz :: sizes, U :: ranges =>
    if sz = 0 then golombEncodeIntervalsRange data sizes ranges
    else
      (1 + (getDeltaEncoding (bRangeUsed U sz) 0 (data.take sz)).length)
        :: bRangeUsed U sz :: getDeltaEncoding (bRangeUsed U sz) 0 (data.take sz)
        ++ golombEncodeIntervalsRange (data.drop sz) sizes ranges
  | _, _, _ => []

/-- The decode loop of `AllToAllHashesGolomb::alltoallv`: read the
payload length, read `b`, delta-decode up to the payload end; at most
`env.size()` packets. -/
def golombAlltoallvDecode : List Nat → Nat → List Nat
  | _, 0 => []
  | [], _ => []
  | szWord :: rest, fuel + 1 =>
    if (rest.take szWord).isEmpty then
      golombAlltoallvDecode (rest.drop szWord) fuel
    else
      getDeltaDecoding ((rest.take szWord).headD 0) (rest.take szWord).tail
        ++ golombAlltoallvDecode (rest.drop szWord) fuel

theorem toBits_length (w : Nat) : ∀ v, (toBits w v).length = w := by
  induction w with
  | zero => intro v; rfl
  | succ w ih => intro v; simp [toBits, ih]

theorem fromBits_toBits (w : Nat) : ∀ v, v < 2 ^ w → fromBits (toBits w v) = v := by
  induction w with
  | zero =>
    intro v hv
    interval_cases v
    rfl
  | succ w ih =>
    intro v hv
    have hdiv : v / 2 < 2 ^ w := by
      rw [Nat.div_lt_iff_lt_mul (by norm_num)]
      calc v < 2 ^ (w + 1) := hv
        _ = 2 ^ w * 2 := by ring
    simp only [toBits, fromBits, ih (v / 2) hdiv]
    omega

theorem mod_lt_pow_remWidth (b v : Nat) (hb : 1 ≤ b) :
    v % b < 2 ^ remWidth b := by
  rcases Nat.lt_or_ge 1 b with hb2 | hb1
  · have h1 : v % b < b := Nat.mod_lt v (by omega)
    have h2 : b ≤ 2 ^ Nat.clog 2 b := Nat.le_pow_clog (by norm_num) b
    unfold remWidth
    omega
  · have : b = 1 := by omega
    subst this
    simp [remWidth, Nat.mod_one]

theorem takeUnary_replicate : ∀ (q : Nat) (t : List Nat),
    takeUnary (List.replicate q 1 ++ 0 :: t) = (q, t) := by
  intro q
  induction q with
  | zero => intro t; simp [takeUnary]
  | succ q ih => intro t; simp [List.replicate_succ, takeUnary, ih]

theorem golombDecodeFuel_congr (b : Nat) : ∀ (f1 : Nat) (f2 : Nat) (l : List Nat),
    l.length ≤ f1 → l.length ≤ f2 →
    golombDecodeFuel b f1 l = golombDecodeFuel b f2 l := by
  intro f1
  induction f1 with
  | zero =>
    intro f2 l h1 _
    have : l = [] := List.length_eq_zero.mp (by omega)
    subst this
    cases f2 <;> rfl
  | succ f1 ih =>
    intro f2 l h1 h2
    cases l with
    | nil => cases f2 <;> rfl
    | cons x rest =>
      cases f2 with
      | zero => simp at h2
      | succ g =>
        simp only [golombDecodeFuel]
        have h4 : (takeUnary (x :: rest)).2.length ≤ rest.length := by
          by_cases hx : x = 1
          · simp only [takeUnary, if_pos hx]
            exact takeUnary_snd_le rest
          · simp [takeUnary, hx]
        have hlen : ((takeUnary (x :: rest)).2.drop (remWidth b)).length
            ≤ rest.length := by
          simp only [List.length_drop]
          omega
        rw [ih g _ (by simp at h1; omega) (by simp at h2; omega)]

/-- Decoding one Golomb codeword off the front of a stream. -/
theorem golombDecodeAll_encodeOne (b : Nat) (hb : 1 ≤ b) (v : Nat) (s : List Nat) :
    golombDecodeAll b (golombEncodeOne b v ++ s) = v :: golombDecodeAll b s := by
  have hshape : golombEncodeOne b v ++ s
      = List.replicate (v / b) 1 ++ 0 :: (toBits (remWidth b) (v % b) ++ s) := by
    simp [golombEncodeOne, List.append_assoc]
  rw [hshape]
  set q := v / b with hq
  set bits := toBits (remWidth b) (v % b) with hbits
  have hbl : bits.length = remWidth b := toBits_length _ _
  have hval : q * b + v % b = v := by
    rw [hq, Nat.mul_comm]
    exact Nat.div_add_mod v b
  have hfrom : fromBits bits = v % b :=
    fromBits_toBits (remWidth b) (v % b) (mod_lt_pow_remWidth b v hb)
  clear_value q bits
  have hnonempty : (List.replicate q 1 ++ 0 :: (bits ++ s)) ≠ [] := by
    cases q <;> simp [List.replicate_succ]
  obtain ⟨x, rest, hl⟩ : ∃ x rest,
      List.replicate q 1 ++ 0 :: (bits ++ s) = x :: rest := by
    cases hcase : List.replicate q 1 ++ 0 :: (bits ++ s) with
    | nil => exact absurd hcase hnonempty
    | cons x rest => exact ⟨x, rest, rfl⟩
  unfold golombDecodeAll
  rw [hl]
  simp only [List.length_cons, golombDecodeFuel]
  rw [← hl, takeUnary_replicate]
  have htake : (bits ++ s).take (remWidth b) = bits := List.take_left' hbl
  have hdrop : (bits ++ s).drop (remWidth b) = s := List.drop_left' hbl
  rw [htake, hdrop, hfrom, hval]
  have hrest : s.length ≤ rest.length := by
    have hlenx : (x :: rest).length = q + 1 + (bits.length + s.length) := by
      rw [← hl]
      simp only [List.length_append, List.length_replicate, List.length_cons]
      omega
    simp only [List.length_cons] at hlenx
    omega
  rw [golombDecodeFuel_congr b rest.length s.length s hrest le_rfl]

/-- Delta-coding round-trip for one sorted interval. -/
theorem deltaRoundtrip (b : Nat) (hb : 1 ≤ b) :
    ∀ (vs : List Nat) (prev : Nat), List.Chain (· ≤ ·) prev vs →
      prefixSums prev (golombDecodeAll b (getDeltaEncoding b prev vs)) = vs := by
  intro vs
  induction vs with
  | nil => intro prev _; rfl
  | cons v vs ih =>
    intro prev hchain
    rw [List.chain_cons] at hchain
    simp only [getDeltaEncoding]
    rw [golombDecodeAll_encodeOne b hb]
    simp only [prefixSums]
    have hv : prev + (v - prev) = v := by omega
    rw [hv]
    exact congrArg _ (ih v hchain.2)

theorem getDeltaDecoding_encoding (b : Nat) (hb : 1 ≤ b) (vs : List Nat)
    (hsorted : List.Pairwise (· ≤ ·) vs) :
    getDeltaDecoding b (getDeltaEncoding b 0 vs) = vs := by
  unfold getDeltaDecoding
  refine deltaRoundtrip b hb vs 0 ?_
  rw [List.chain_iff_pairwise]
  exact List.Pairwise.cons (fun a _ => Nat.zero_le a) hsorted

theorem one_le_getB (U n : Nat) : 1 ≤ getB U n := le_max_left 1 _

theorem one_le_bFilterUsed (U n : Nat) : 1 ≤ bFilterUsed U n := by
  unfold bFilterUsed
  by_cases h : getB U n = 1
  · rw [if_pos h]; norm_num
  · rw [if_neg h]; exact one_le_getB U n

theorem golombDecode_encodeIntervals (bSel : Nat → Nat)
    (hb : ∀ n, 1 ≤ bSel n) :
    ∀ (sizes data : List Nat) (fuel : Nat),
      sizes.length ≤ fuel → sizes.sum = data.length →
      List.Pairwise (· ≤ ·) data →
      golombAlltoallvDecode (golombEncodeIntervals bSel data sizes) fuel
        = data := by
  intro sizes
  induction sizes with
  | nil =>
    intro data fuel _ hsum _
    have : data = [] := List.length_eq_zero.mp (by simpa using hsum.symm)
    subst this
    cases fuel <;> rfl
  | cons sz sizes ih =>
    intro data fuel hlen hsum hsorted
    by_cases hsz : sz = 0
    · subst hsz
      simp only [golombEncodeIntervals, if_pos rfl]
      exact ih data fuel (by simp at hlen; omega) (by simpa using hsum) hsorted
    · obtain ⟨f, rfl⟩ : ∃ f, fuel = f + 1 :=
        ⟨fuel - 1, by simp at hlen; omega⟩
      simp only [golombEncodeIntervals, if_neg hsz]
      set b := bSel sz with hbdef
      set stream := getDeltaEncoding b 0 (data.take sz) with hstream
      set enc2 := golombEncodeIntervals bSel (data.drop sz) sizes with henc2
      have ht : ((b :: (stream ++ enc2)).take (1 + stream.length))
          = b :: stream := by
        rw [show 1 + stream.length = stream.length + 1 from by omega]
        rw [List.take_succ_cons, List.take_left' rfl]
      have hd : ((b :: (stream ++ enc2)).drop (1 + stream.length)) = enc2 := by
        rw [show 1 + stream.length = stream.length + 1 from by omega]
        rw [List.drop_succ_cons, List.drop_left' rfl]
      rw [List.cons_append, List.cons_append]
      simp only [golombAlltoallvDecode, ht, hd, List.isEmpty_cons,
        Bool.false_eq_true, if_false, List.headD_cons, List.tail_cons]
      have hsz_le : sz ≤ data.length := by
        simp only [List.sum_cons] at hsum
        omega
      have h1 : getDeltaDecoding b stream = data.take sz := by
        rw [hstream]
        refine getDeltaDecoding_encoding b (hb sz) (data.take sz) ?_
        exact List.Pairwise.sublist (List.take_sublist sz data) hsorted
      have h2 : golombAlltoallvDecode enc2 f = data.drop sz := by
        rw [henc2]
        refine ih (data.drop sz) f (by simp at hlen; omega) ?_ ?_
        · simp only [List.sum_cons] at hsum
          simp only [List.length_drop]
          omega
        · exact List.Pairwise.sublist (List.drop_sublist sz data) hsorted
      rw [h1, h2, List.take_append_drop]

/-- C6: Golomb-encoding the per-receiver intervals of a sorted u64
sequence into `[payload_len, b, delta-stream]` packets and decoding the
resulting stream is the identity (communication is loopback: the
decoder reads exactly what the encoder wrote). -/
theorem c6_golomb_roundtrip (sendData intervalSizes : List Nat)
    (bloomFilterSize P : Nat)
    (hsorted : List.Pairwise (· ≤ ·) sendData)
    (hlen : intervalSizes.length = P)
    (hsum : intervalSizes.sum = sendData.length) :
    golombAlltoallvDecode
        (alltoallvGolombEncode sendData intervalSizes bloomFilterSize P) P
      = sendData := by
  unfold alltoallvGolombEncode
  exact golombDecode_encodeIntervals _ (fun n => one_le_bFilterUsed _ n)
    intervalSizes sendData P (le_of_eq hlen) hsum hsorted

/-- Witness for C6 at a concrete sorted sequence, two receivers. -/
theorem c6_golomb_roundtrip_witness :
    (List.Pairwise (· ≤ ·) ([3, 5, 10] : List Nat) ∧
      ([2, 1] : List Nat).length = 2 ∧
      ([2, 1] : List Nat).sum = ([3, 5, 10] : List Nat).length) ∧
    golombAlltoallvDecode
        (alltoallvGolombEncode [3, 5, 10] [2, 1] (2 ^ 64 - 1) 2) 2
      = [3, 5, 10] :=
  ⟨⟨by decide, by decide, by decide⟩,
    c6_golomb_roundtrip [3, 5, 10] [2, 1] (2 ^ 64 - 1) 2
      (by decide) (by decide) (by decide)⟩

theorem getB_ten_hundred : getB 10 100 = 1 := by
  unfold getB
  have hcast : ((10 : Nat) : ℝ) * Real.log 2 / ((100 : Nat) : ℝ)
      = (10 : ℝ) * Real.log 2 / 100 := by push_cast; ring
  rw [hcast]
  have hlt : Real.log 2 < 0.6931471808 := Real.log_two_lt_d9
  have hpos : (0 : ℝ) < Real.log 2 := Real.log_pos (by norm_num)
  have hx : round ((10 : ℝ) * Real.log 2 / 100) = 0 := by
    rw [round_eq, Int.floor_eq_zero_iff]
    constructor
    · have : (0 : ℝ) ≤ (10 : ℝ) * Real.log 2 / 100 := by positivity
      linarith
    · have hhalf : (10 : ℝ) * Real.log 2 / 100 < 1 / 2 := by
        rw [div_lt_iff₀ (by norm_num)]
        nlinarith
      linarith
  rw [hx]
  rfl

/-- C7 counterexample: for an interval of 100 hashes from a universe of
size 10, `max(1, round(U·ln 2 / n)) = 1`, but the interval-range
encoder writes `b = 8` into the packet (the clamp `b < 8 → b = 8`). -/
theorem c7_counterexample :
    getB 10 100 = 1 ∧
    (golombEncodeIntervalsRange (List.range 100) [100] [10])[1]? = some 8 ∧
    (golombEncodeIntervalsRange (List.range 100) [100] [10])[1]?
      ≠ some (getB 10 100) := by
  have h1 : getB 10 100 = 1 := getB_ten_hundred
  have hbr : bRangeUsed 10 100 = 8 := by
    unfold bRangeUsed
    rw [h1]
    norm_num
  have h2 : (golombEncodeIntervalsRange (List.range 100) [100] [10])[1]?
      = some (bRangeUsed 10 100) := by
    simp only [golombEncodeIntervalsRange]
    rw [if_neg (by norm_num)]
    simp
  refine ⟨h1, ?_, ?_⟩
  · rw [h2, hbr]
  · rw [h2, hbr, h1]
    simp

/-- C7 amended: the Golomb parameter for an interval of `n > 0` hashes
from universe `U` is `getB U n = max(1, round(U·ln 2 / n))` only after
clamping: the interval-range path replaces values below 8 by 8, and the
filter-size path (universe `bloomFilterSize / P`) replaces the value 1
by 20000000000; so the packet's `b` word equals the `getB` value
exactly when that value is at least 8 (interval-range path) resp. at
least 2 (filter-size path). -/
theorem c7_amended (U n : Nat) (data : List Nat) (B P : Nat) (hn : 0 < n) :
    ((golombEncodeIntervalsRange data [n] [U])[1]? = some (getB U n) ↔
      8 ≤ getB U n) ∧
    ((alltoallvGolombEncode data [n] B P)[1]? = some (getB (B / P) n) ↔
      2 ≤ getB (B / P) n) := by
  have hrange : (golombEncodeIntervalsRange data [n] [U])[1]?
      = some (bRangeUsed U n) := by
    simp only [golombEncodeIntervalsRange]
    rw [if_neg (by omega)]
    simp
  have hfilter : (alltoallvGolombEncode data [n] B P)[1]?
      = some (bFilterUsed (B / P) n) := by
    unfold alltoallvGolombEncode
    simp only [golombEncodeIntervals]
    rw [if_neg (by omega)]
    simp
  constructor
  · rw [hrange]
    constructor
    · intro h
      rw [Option.some_inj] at h
      by_contra h8
      have hlt : getB U n < 8 := by omega
      simp only [bRangeUsed] at h
      rw [if_pos hlt] at h
      omega
    · intro h8
      simp only [bRangeUsed]
      rw [if_neg (by omega)]
  · rw [hfilter]
    constructor
    · intro h
      rw [Option.some_inj] at h
      by_cases h1 : getB (B / P) n = 1
      · simp only [bFilterUsed] at h
        rw [if_pos h1] at h
        omega
      · have := one_le_getB (B / P) n
        omega
    · intro h2
      simp only [bFilterUsed]
      rw [if_neg (by omega)]

theorem getB_thousand_one : 8 ≤ getB 1000 1 := by
  unfold getB
  have hcast : ((1000 : Nat) : ℝ) * Real.log 2 / ((1 : Nat) : ℝ)
      = (1000 : ℝ) * Real.log 2 / 1 := by push_cast; ring
  rw [hcast]
  have hgt : (0.6931471803 : ℝ) < Real.log 2 := Real.log_two_gt_d9
  have h : (8 : ℤ) ≤ round ((1000 : ℝ) * Real.log 2 / 1) := by
    rw [round_eq]
    refine Int.le_floor.mpr ?_
    push_cast
    nlinarith
  have h2 : 8 ≤ (round ((1000 : ℝ) * Real.log 2 / 1)).toNat := by omega
  exact le_trans h2 (le_max_right 1 _)

/-- Witness for C7 (amended) at `U = 1000`, `n = 1`, filter size 1000,
`P = 1`. -/
theorem c7_amended_witness :
    0 < 1 ∧
    (((golombEncodeIntervalsRange [42] [1] [1000])[1]? = some (getB 1000 1) ↔
        8 ≤ getB 1000 1) ∧
      ((alltoallvGolombEncode [42] [1] 1000 1)[1]? = some (getB (1000 / 1) 1) ↔
        2 ≤ getB (1000 / 1) 1)) :=
  ⟨by decide, c7_amended 1000 1 [42] 1000 1 (by decide)⟩

/-! ## The two duplicate `filter_exact` implementations (C9)

`ExcatDistinguishingPrefix` and `BloomfilterTest` in `bloomfilter.hpp`
both allgather the candidate strings of every rank, build
`StringTriple`s (string, original index, owner rank) and update a
per-string distinguishing-prefix-length array with
`1 + calc_lcp(prev, curr)` over the stably sorted triples.  The bodies
are textually near-identical; each class is translated separately
below.  Shared library code (`calc_lcp` from `strings/stringtools.hpp`
— not under src/, modelled from the spec glossary definition of LCP —
and the raw-buffer splitting of the container constructors) is shared,
as it is in the C++. -/

/-- Modelled from the spec: `calc_lcp` (from `strings/stringtools.hpp`,
not under src/) — the byte length over which two null-terminated
strings agree. -/
def calc_lcp : Str → Str → Nat
  | x :: xs, y :: ys => if x = y ∧ x ≠ 0 then 1 + calc_lcp xs ys else 0
  | _, _ => 0

/-- `StringTriple` from `bloomfilter.hpp` (its comparator is `strLt` on
the string component). -/
structure StringTriple where
  string : Str
  stringIndex : Nat
  PEIndex : Nat
deriving DecidableEq

/-- Split a raw char buffer at its 0 terminators into strings
(`_internal::init_strings` of `stringcontainer.hpp`); fuel-indexed,
each round consumes at least one byte. -/
def splitNullFuel : Nat → List Nat → List Str
  | 0, _ => []
  | _, [] => []
  | fuel + 1, buf =>
    buf.takeWhile (fun c => c ≠ 0)
      :: splitNullFuel fuel ((buf.dropWhile (fun c => c ≠ 0)).drop 1)

/-- Strings of a container constructed from a raw buffer. -/
def splitNull (buf : List Nat) : List Str := splitNullFuel buf.length buf

/-- `distinguishingPrefixLength[i] = max(old, v)` update. -/
def updMaxE (r : List Nat) (i v : Nat) : List Nat := r.set i (max (r.getD i 0) v)

/-- Same update as spelled in `BloomfilterTest`. -/
def updMaxT (r : List Nat) (i v : Nat) : List Nat := r.set i (max (r.getD i 0) v)

/-- Adjacent-pair loop of
`ExcatDistinguishingPrefix::computeExactDistPrefixLengths`. -/
def cedpGoE (rank : Nat) : List StringTriple → List Nat → List Nat
  | a :: b :: rest, results =>
    let v := 1 + calc_lcp a.string b.string
    let r1 := if a.PEIndex = rank then updMaxE results a.stringIndex v else results
    let r2 := if b.PEIndex = rank then updMaxE r1 b.stringIndex v else r1
    cedpGoE rank (b :: rest) r2
  | _, results => results

/-- Adjacent-pair loop of
`BloomfilterTest::computeExactDistPrefixLengths`. -/
def cedpGoT (rank : Nat) : List StringTriple → List Nat → List Nat
  | a :: b :: rest, results =>
    let v := 1 + calc_lcp a.string b.string
    let r1 := if a.PEIndex = rank then updMaxT results a.stringIndex v else results
    let r2 := if b.PEIndex = rank then updMaxT r1 b.stringIndex v else r1
    cedpGoT rank (b :: rest) r2
  | _, results => results

/-- `ExcatDistinguishingPrefix::computeExactDistPrefixLengths`. -/
def computeExactDistPrefixLengthsE (rank : Nat) (triples : List StringTriple)
    (results : List Nat) : List Nat :=
  if triples = [] then results
  else cedpGoE rank (triples.mergeSort (fun a b => !strLt b.string a.string)) results

/-- `BloomfilterTest::computeExactDistPrefixLengths`. -/
def computeExactDistPrefixLengthsT (rank : Nat) (triples : List StringTriple)
    (results : List Nat) : List Nat :=
  if triples = [] then results
  else cedpGoT rank (triples.mergeSort (fun a b => !strLt b.string a.string)) results

/-- Per-rank interval loop of
`ExcatDistinguishingPrefix::generateStringTriples`. -/
def genTriplesGoE (globalStrs : List Str) (idxs : List Nat) (rank : Nat) :
    List Nat → List StringTriple
  | [] => []
  | c :: counts =>
    List.zipWith (fun s i => StringTriple.mk s i rank)
        (globalStrs.take c) (idxs.take c)
      ++ genTriplesGoE (globalStrs.drop c) (idxs.drop c) (rank + 1) counts

/-- Per-rank interval loop of `BloomfilterTest::generateStringTriples`. -/
def genTriplesGoT (globalStrs : List Str) (idxs : List Nat) (rank : Nat) :
    List Nat → List StringTriple
  | [] => []
  | c :: counts =>
    List.zipWith (fun s i => StringTriple.mk s i rank)
        (globalStrs.take c) (idxs.take c)
      ++ genTriplesGoT (globalStrs.drop c) (idxs.drop c) (rank + 1) counts

/-- `ExcatDistinguishingPrefix::generateStringTriples`. -/
def generateStringTriplesE (globalStrs : List Str)
    (intervalSizes stringIndices : List Nat) : List StringTriple :=
  if intervalSizes.sum = 0 then []
  else genTriplesGoE globalStrs stringIndices 0 intervalSizes

/-- `BloomfilterTest::generateStringTriples`. -/
def generateStringTriplesT (globalStrs : List Str)
    (intervalSizes stringIndices : List Nat) : List StringTriple :=
  if intervalSizes.sum = 0 then []
  else genTriplesGoT globalStrs stringIndices 0 intervalSizes

/-- `ExcatDistinguishingPrefix::ContainerSizesIndices` (the container
reduced to its string list). -/
structure ContainerSizesIndicesE where
  strs : List Str
  intervalSizes : List Nat
  stringIndices : List Nat

/-- `BloomfilterTest::ContainerSizesIndices`. -/
structure ContainerSizesIndicesT where
  strs : List Str
  intervalSizes : List Nat
  stringIndices : List Nat

/-- `ExcatDistinguishingPrefix::allgatherStrings`: each rank
contributes its candidates' null-terminated bytes, the candidate
count, and the candidate indices; the gathered buffer is split back
into strings.  Inputs: per-rank `(local strings, candidate indices)`. -/
def allgatherStringsE (allInputs : List (List Str × List Nat)) :
    ContainerSizesIndicesE :=
  { strs := splitNull ((allInputs.map (fun ri =>
      (ri.2.map (fun j => ri.1.getD j [] ++ [0])).flatten)).flatten),
    intervalSizes := allInputs.map (fun ri => ri.2.length),
    stringIndices := (allInputs.map (fun ri => ri.2)).flatten }

/-- `BloomfilterTest::allgatherStrings`. -/
def allgatherStringsT (allInputs : List (List Str × List Nat)) :
    ContainerSizesIndicesT :=
  { strs := splitNull ((allInputs.map (fun ri =>
      (ri.2.map (fun j => ri.1.getD j [] ++ [0])).flatten)).flatten),
    intervalSizes := allInputs.map (fun ri => ri.2.length),
    stringIndices := (allInputs.map (fun ri => ri.2)).flatten }

/-- `ExcatDistinguishingPrefix::filter_exact`. -/
def filter_exactE (allInputs : List (List Str × List Nat)) (rank : Nat)
    (results : List Nat) : List Nat :=
  let csi := allgatherStringsE allInputs
  computeExactDistPrefixLengthsE rank
    (generateStringTriplesE csi.strs csi.intervalSizes csi.stringIndices) results

/-- `BloomfilterTest::filter_exact`. -/
def filter_exactT (allInputs : List (List Str × List Nat)) (rank : Nat)
    (results : List Nat) : List Nat :=
  let csi := allgatherStringsT allInputs
  computeExactDistPrefixLengthsT rank
    (generateStringTriplesT csi.strs csi.intervalSizes csi.stringIndices) results

theorem updMax_eq : updMaxE = updMaxT := rfl

theorem cedpGo_eq (rank : Nat) : ∀ (l : List StringTriple) (results : List Nat),
    cedpGoE rank l results = cedpGoT rank l results := by
  intro l
  induction l with
  | nil => intro results; rfl
  | cons a tail ih =>
    intro results
    cases tail with
    | nil => rfl
    | cons b rest =>
      simp only [cedpGoE, cedpGoT, updMax_eq]
      exact ih _

theorem genTriplesGo_eq : ∀ (counts : List Nat) (globalStrs : List Str)
    (idxs : List Nat) (rank : Nat),
    genTriplesGoE globalStrs idxs rank counts
      = genTriplesGoT globalStrs idxs rank counts := by
  intro counts
  induction counts with
  | nil => intro g i r; rfl
  | cons c counts ih =>
    intro g i r
    simp only [genTriplesGoE, genTriplesGoT, ih]

/-- C9: the two near-duplicate exact distinguishing-prefix
implementations are observationally equal — for every distributed
input (per-rank strings and candidate lists), every rank, and every
initial results array they leave the results array in the same final
state. -/
theorem c9_filter_exact_equal (allInputs : List (List Str × List Nat))
    (rank : Nat) (results : List Nat) :
    filter_exactE allInputs rank results = filter_exactT allInputs rank results := by
  unfold filter_exactE filter_exactT allgatherStringsE allgatherStringsT
  unfold computeExactDistPrefixLengthsE computeExactDistPrefixLengthsT
  unfold generateStringTriplesE generateStringTriplesT
  simp only [genTriplesGo_eq, cedpGo_eq]

/-! ## `distributed_sorter` dispatch chain (C10)

`arg1` … `arg7` in `executables/distributed_sorter.cpp` select template
policies from the parsed `CombinationKey` and either die
(`tlx_die("not implemented")` for unimplemented variants,
`tlx_die("not yet implemented")` for prefix doubling in `arg7`) or call
`run_merge_sort` (which starts string generation and sorting).  The
chain is modelled as a function to an outcome; `print_config` and the
communication warm-up emit no strings and sort nothing. -/

inductive GolombEnc where
  | noGolombEncoding
  | sequentialGolombEncoding
  | pipelinedGolombEncoding
deriving DecidableEq

inductive StringGeneratorSel where
  | skewedRandomStringLcpContainer
  | DNRatioGenerator
  | File
  | SkewedDNRatioGenerator
  | SuffixGenerator
deriving DecidableEq

inductive SampleStringSel where
  | numStrings
  | numChars
  | indexedNumStrings
  | indexedNumChars
deriving DecidableEq

inductive MPIRoutineAllToAllSel where
  | small
  | directMessages
  | combined
deriving DecidableEq

/-- `PolicyEnums::CombinationKey`. -/
structure CombinationKey where
  golomb_encoding : GolombEnc
  string_generator : StringGeneratorSel
  sample_policy : SampleStringSel
  alltoall_routine : MPIRoutineAllToAllSel
  prefix_compression : Bool
  lcp_compression : Bool
  prefix_doubling : Bool
deriving DecidableEq

/-- What the dispatch chain ends in. -/
inductive DispatchOutcome where
  | die (msg : String)
  | runMergeSort
deriving DecidableEq

/-- `arg7`: dies on prefix doubling, otherwise runs the merge sort. -/
def arg7 (key : CombinationKey) : DispatchOutcome :=
  if key.prefix_doubling then .die "not yet implemented" else .runMergeSort

/-- `arg6`: picks the `LcpCompression` type, no control effect. -/
def arg6 (key : CombinationKey) : DispatchOutcome := arg7 key

/-- `arg5`: picks the `ByteEncoder` type, no control effect. -/
def arg5 (key : CombinationKey) : DispatchOutcome := arg6 key

/-- `arg4`: golomb mode; `pipelined` is not implemented. -/
def arg4 (key : CombinationKey) : DispatchOutcome :=
  match key.golomb_encoding with
  | .noGolombEncoding => arg5 key
  | .sequentialGolombEncoding => arg5 key
  | .pipelinedGolombEncoding => .die "not implemented"

/-- `arg3`: alltoall routine; only `combined` is implemented. -/
def arg3 (key : CombinationKey) : DispatchOutcome :=
  match key.alltoall_routine with
  | .small => .die "not implemented"
  | .directMessages => .die "not implemented"
  | .combined => arg4 key

/-- `arg2`: sample policy, no control effect. -/
def arg2 (key : CombinationKey) : DispatchOutcome :=
  match key.sample_policy with
  | .numStrings => arg3 key
  | .numChars => arg3 key
  | .indexedNumStrings => arg3 key
  | .indexedNumChars => arg3 key

/-- `arg1`: string generator; `skewed` is not implemented. -/
def arg1 (key : CombinationKey) : DispatchOutcome :=
  match key.string_generator with
  | .skewedRandomStringLcpContainer => .die "not implemented"
  | .DNRatioGenerator => arg2 key
  | .File => arg2 key
  | .SkewedDNRatioGenerator => arg2 key
  | .SuffixGenerator => arg2 key

/-- C10 counterexample: with `-d` set and the skewed generator
selected, the program aborts in `arg1` with "not implemented" — not
with "not yet implemented" as the claim states for every combination
of the remaining options. -/
theorem c10_counterexample :
    arg1 { golomb_encoding := .noGolombEncoding,
           string_generator := .skewedRandomStringLcpContainer,
           sample_policy := .numStrings,
           alltoall_routine := .combined,
           prefix_compression := false,
           lcp_compression := false,
           prefix_doubling := true }
      = .die "not implemented" ∧
    DispatchOutcome.die "not implemented"
      ≠ DispatchOutcome.die "not yet implemented" :=
  ⟨rfl, by decide⟩

/-- C10 amended: with the prefix-doubling flag set the program never
reaches string generation or sorting; it aborts with
"not yet implemented" exactly when the earlier dispatch stages are all
implemented (generator not skewed, alltoall routine combined, golomb
mode not pipelined) — otherwise it aborts earlier with
"not implemented". -/
theorem c10_amended (key : CombinationKey)
    (hd : key.prefix_doubling = true) :
    arg1 key ≠ DispatchOutcome.runMergeSort ∧
    ((key.string_generator ≠ .skewedRandomStringLcpContainer ∧
      key.alltoall_routine = .combined ∧
      key.golomb_encoding ≠ .pipelinedGolombEncoding) ↔
      arg1 key = .die "not yet implemented") := by
  rcases key with ⟨g, sg, sp, rt, pc, lc, pd⟩
  simp only at hd
  subst hd
  cases g <;> cases sg <;> cases sp <;> cases rt <;>
    simp [arg1, arg2, arg3, arg4, arg5, arg6, arg7]

/-- Witness for C10 (amended) at a concrete key. -/
theorem c10_amended_witness :
    ({ golomb_encoding := .noGolombEncoding,
       string_generator := .DNRatioGenerator,
       sample_policy := .numStrings,
       alltoall_routine := .combined,
       prefix_compression := false,
       lcp_compression := true,
       prefix_doubling := true } : CombinationKey).prefix_doubling = true ∧
    (arg1 { golomb_encoding := .noGolombEncoding,
            string_generator := .DNRatioGenerator,
            sample_policy := .numStrings,
            alltoall_routine := .combined,
            prefix_compression := false,
            lcp_compression := true,
            prefix_doubling := true } ≠ DispatchOutcome.runMergeSort ∧
      ((({ golomb_encoding := .noGolombEncoding,
           string_generator := .DNRatioGenerator,
           sample_policy := .numStrings,
           alltoall_routine := .combined,
           prefix_compression := false,
           lcp_compression := true,
           prefix_doubling := true } : CombinationKey).string_generator
            ≠ .skewedRandomStringLcpContainer ∧
        ({ golomb_encoding := .noGolombEncoding,
           string_generator := .DNRatioGenerator,
           sample_policy := .numStrings,
           alltoall_routine := .combined,
           prefix_compression := false,
           lcp_compression := true,
           prefix_doubling := true } : CombinationKey).alltoall_routine
            = .combined ∧
        ({ golomb_encoding := .noGolombEncoding,
           string_generator := .DNRatioGenerator,
           sample_policy := .numStrings,
           alltoall_routine := .combined,
           prefix_compression := false,
           lcp_compression := true,
           prefix_doubling := true } : CombinationKey).golomb_encoding
            ≠ .pipelinedGolombEncoding) ↔
        arg1 { golomb_encoding := .noGolombEncoding,
               string_generator := .DNRatioGenerator,
               sample_policy := .numStrings,
               alltoall_routine := .combined,
               prefix_compression := false,
               lcp_compression := true,
               prefix_doubling := true } = .die "not yet implemented")) :=
  ⟨rfl,
    c10_amended { golomb_encoding := .noGolombEncoding,
                  string_generator := .DNRatioGenerator,
                  sample_policy := .numStrings,
                  alltoall_routine := .combined,
                  prefix_compression := false,
                  lcp_compression := true,
                  prefix_doubling := true } rfl⟩

/-! ## Distributed merge sort driver (C1)

`sorter/distributed/merge_sort.hpp` (the `DistributedMergeSort` used by
`run_merge_sort` in `executables/distributed_sorter.cpp`) and the
partition helper `compute_interval_binary` are not under src/ — only
the driver `run_merge_sort`, the sampler plumbing (`partition.hpp`) and
the spec describe them.  The sort round is therefore modelled from the
spec (§4.5, §4.7): each rank sorts locally, each string is mapped to
its receiver by binary search against the `P-1` chosen splitters, the
strings are exchanged, and each receiver multiway-merges its sorted
runs.  The default invocation has an empty level schedule, i.e. a
single round over the whole communicator. -/

theorem strLt_trans {a b c : Str} (hab : strLt a b = true)
    (hbc : strLt b c = true) : strLt a c = true := by
  rw [strLt_eq_lexLt] at hab hbc ⊢
  exact lexLt_trans hab hbc

/-- Modelled from the spec: the local shared-memory sort (external
building block, §1). -/
def localSort (l : List Str) : List Str := l.mergeSort strLe

/-- Modelled from the spec: `compute_interval_binary` — a string's
receiver is its lower-bound position in the sorted splitter array,
i.e. the number of splitters strictly smaller than it. -/
def receiverOf (splitters : List Str) (s : Str) : Nat :=
  splitters.countP (fun t => strLt t s)

/-- Modelled from the spec: multiway merge of sorted runs — the sorted
sequence of their union. -/
def multiwayMerge (runs : List (List Str)) : List Str :=
  runs.flatten.mergeSort strLe

/-- Modelled from the spec: one round of the distributed merge sort
over `P = inputs.length` ranks — local sort, partition by splitters,
string exchange, multiway merge of the received runs.  The result is
the per-rank output sequence. -/
def run_merge_sort (splitters : List Str) (inputs : List (List Str)) :
    List (List Str) :=
  (List.range inputs.length).map (fun k =>
    multiwayMerge (inputs.map (fun input =>
      (localSort input).filter (fun s => decide (receiverOf splitters s = k)))))

theorem receiverOf_lt {splitters : List Str} (s : Str) :
    receiverOf splitters s ≤ splitters.length :=
  List.countP_le_length _

theorem strLe_of_receiverOf_lt {S : List Str} {x y : Str}
    (h : receiverOf S x < receiverOf S y) : strLe x y = true := by
  cases hyx : strLt y x
  · simp [strLe, hyx]
  · exfalso
    have hmono : S.countP (fun t => strLt t y) ≤ S.countP (fun t => strLt t x) :=
      List.countP_mono_left (fun t _ hty => strLt_trans hty hyx)
    unfold receiverOf at h
    omega

theorem sum_range_indicator_zero (T : Nat) :
    ∀ (P v : Nat), P ≤ v →
      ((List.range P).map (fun k => if v = k then T else 0)).sum = 0 := by
  intro P
  induction P with
  | zero => intro v _; rfl
  | succ P ih =>
    intro v hv
    rw [List.range_succ, List.map_append, List.sum_append]
    simp only [List.map_cons, List.map_nil, List.sum_cons, List.sum_nil]
    rw [ih v (by omega), if_neg (by omega)]
    omega

theorem sum_range_indicator (T : Nat) :
    ∀ (P v : Nat), v < P →
      ((List.range P).map (fun k => if v = k then T else 0)).sum = T := by
  intro P
  induction P with
  | zero => intro v hv; omega
  | succ P ih =>
    intro v hv
    rw [List.range_succ, List.map_append, List.sum_append]
    simp only [List.map_cons, List.map_nil, List.sum_cons, List.sum_nil]
    by_cases hvP : v = P
    · rw [hvP, sum_range_indicator_zero T P P le_rfl, if_pos rfl]
      omega
    · rw [ih v (by omega), if_neg hvP]
      omega

theorem c1_bucket_count (splitters : List Str) (inputs : List (List Str))
    (a : Str) (k : Nat) :
    List.countP (fun x => decide (x = a))
        ((inputs.map (fun input =>
          (localSort input).filter
            (fun s => decide (receiverOf splitters s = k)))).flatten)
      = if receiverOf splitters a = k
        then (inputs.map (fun input =>
          List.countP (fun x => decide (x = a)) input)).sum else 0 := by
  rw [List.countP_flatten, List.map_map]
  have hpt : ∀ input : List Str,
      (List.countP (fun x => decide (x = a)) ∘ fun input =>
        (localSort input).filter (fun s => decide (receiverOf splitters s = k)))
          input
      = if receiverOf splitters a = k
        then List.countP (fun x => decide (x = a)) input else 0 := by
    intro input
    simp only [Function.comp_apply]
    rw [List.countP_filter]
    by_cases hk : receiverOf splitters a = k
    · rw [if_pos hk]
      have hcongr : List.countP
          (fun s => decide (s = a) && decide (receiverOf splitters s = k))
            (localSort input)
          = List.countP (fun x => decide (x = a)) (localSort input) := by
        refine List.countP_congr ?_
        intro x _
        constructor
        · intro hx
          simp only [Bool.and_eq_true, decide_eq_true_eq] at hx
          simp [hx.1]
        · intro hx
          simp only [decide_eq_true_eq] at hx
          subst hx
          simp [hk]
      rw [hcongr]
      exact List.Perm.countP_eq _ (List.mergeSort_perm input strLe)
    · rw [if_neg hk]
      rw [List.countP_eq_zero]
      intro x _ hx
      simp only [Bool.and_eq_true, decide_eq_true_eq] at hx
      obtain ⟨rfl, hxk⟩ := hx
      exact hk hxk
  rw [List.map_congr_left (fun input _ => hpt input)]
  by_cases hk : receiverOf splitters a = k
  · rw [if_pos hk]
    refine congrArg _ (List.map_congr_left ?_)
    intro input _
    rw [if_pos hk]
  · rw [if_neg hk]
    rw [List.map_congr_left (fun input _ => if_neg hk)]
    simp

/-- C1: for every distributed input, the string sequence produced by
the (spec-modelled) merge-sort round with the `P-1` chosen splitters is
globally sorted and a permutation of the input strings. -/
theorem c1_merge_sort_driver (splitters : List Str) (inputs : List (List Str))
    (hsplit : splitters.length + 1 = inputs.length) :
    List.Pairwise (fun x y => strLe x y = true)
      (run_merge_sort splitters inputs).flatten ∧
    (run_merge_sort splitters inputs).flatten.Perm inputs.flatten := by
  constructor
  · unfold run_merge_sort
    rw [List.pairwise_flatten]
    constructor
    · intro l hl
      rw [List.mem_map] at hl
      obtain ⟨k, _, rfl⟩ := hl
      exact List.sorted_mergeSort
        (fun x y z (hxy : strLe x y = true) (hyz : strLe y z = true) =>
          strLe_trans hxy hyz) strLe_total _
    · refine List.Pairwise.map _ ?_ (List.pairwise_lt_range inputs.length)
      intro k₁ k₂ hk x hx y hy
      have hx' := List.mem_mergeSort.mp hx
      rw [List.mem_flatten] at hx'
      obtain ⟨lx, hlx, hxl⟩ := hx'
      rw [List.mem_map] at hlx
      obtain ⟨ix, _, rfl⟩ := hlx
      have hxk : receiverOf splitters x = k₁ := by
        have := List.of_mem_filter hxl
        simpa using this
      have hy' := List.mem_mergeSort.mp hy
      rw [List.mem_flatten] at hy'
      obtain ⟨ly, hly, hyl⟩ := hy'
      rw [List.mem_map] at hly
      obtain ⟨iy, _, rfl⟩ := hly
      have hyk : receiverOf splitters y = k₂ := by
        have := List.of_mem_filter hyl
        simpa using this
      exact strLe_of_receiverOf_lt (by rw [hxk, hyk]; exact hk)
  · rw [List.perm_iff_count]
    intro a
    show List.countP (fun x => decide (x = a)) (run_merge_sort splitters inputs).flatten
        = List.countP (fun x => decide (x = a)) inputs.flatten
    unfold run_merge_sort multiwayMerge
    rw [List.countP_flatten, List.map_map]
    have hstep : ∀ k ∈ List.range inputs.length,
        (List.countP (fun x => decide (x = a)) ∘ fun k =>
          (inputs.map (fun input =>
            (localSort input).filter
              (fun s => decide (receiverOf splitters s = k)))).flatten.mergeSort
                strLe) k
        = if receiverOf splitters a = k
          then (inputs.map (fun input =>
            List.countP (fun x => decide (x = a)) input)).sum else 0 := by
      intro k _
      simp only [Function.comp_apply]
      rw [List.Perm.countP_eq _ (List.mergeSort_perm _ strLe)]
      exact c1_bucket_count splitters inputs a k
    rw [List.map_congr_left hstep]
    rw [sum_range_indicator _ inputs.length (receiverOf splitters a)
      (by have := @receiverOf_lt splitters a; omega)]
    rw [List.countP_flatten]

/-- Witness for C1 at a concrete two-rank input with one splitter
(the S2 scenario of the spec: rank 0 = ["c","a"], rank 1 = ["b","d"],
splitter "b"; bytes stand in for characters). -/
theorem c1_merge_sort_driver_witness :
    ([[2]] : List Str).length + 1 = ([[[3], [1]], [[2], [4]]] : List (List Str)).length ∧
    (List.Pairwise (fun x y => strLe x y = true)
        (run_merge_sort [[2]] [[[3], [1]], [[2], [4]]]).flatten ∧
      (run_merge_sort [[2]] [[[3], [1]], [[2], [4]]]).flatten.Perm
        ([[[3], [1]], [[2], [4]]] : List (List Str)).flatten) :=
  ⟨by decide, c1_merge_sort_driver [[2]] [[[3], [1]], [[2], [4]]] (by decide)⟩

end DSS
